import Mathlib

set_option maxRecDepth 8000

/-!
Verification of the bibo-img-crypto pixel/byte transformation engine.

The definitions below are a shallow embedding of `src/codec.js`:
raster data (`ImageData`) is a list of byte values, the imperative
per-index loops become folds of `List.set` updates, and the PNG
container walk of `MosaicCodec.decryptToUrl` becomes a total function
returning `Option` (where `none` models the empty-string "recovery
failed" result produced by the `try/catch`).

`RandomSequence` (the module `src/random.js`) is not part of the
sources under verification, so it is modelled from the design
document's contract: a deterministic seeded generator that emits every
index in `[0, n)` exactly once, in Fisher–Yates style.
-/

/-- Modelled from the spec: the pseudorandom step underlying
`RandomSequence` (src/random.js is absent from the sources).  A plain
linear-congruential update; the design document only requires a fixed,
deterministic algorithm. -/
def rngNext (seed : Nat) : Nat := (seed * 9301 + 49297) % 233280

/-- Modelled from the spec: state of the deterministic permutation
sequence — the indices not yet emitted plus the PRNG state. -/
structure RandomSequence where
  remaining : List Nat
  seed : Nat

/-- Modelled from the spec: `new RandomSequence(n, seed)`. -/
def RandomSequence.new (n seed : Nat) : RandomSequence :=
  ⟨List.range n, seed⟩

/-- Modelled from the spec: `next()` — draw a pseudorandom position
among the remaining indices, emit it and remove it (a seeded
Fisher–Yates-style step, as described in the design document). -/
def RandomSequence.next (s : RandomSequence) : Nat × RandomSequence :=
  let seed2 := rngNext s.seed
  let r := seed2 % s.remaining.length
  (s.remaining.getD r 0, ⟨s.remaining.eraseIdx r, seed2⟩)

/-- The list of the first `k` outputs of the sequence. -/
def RandomSequence.outputs : RandomSequence → Nat → List Nat
  | _, 0 => []
  | s, Nat.succ k => (s.next).1 :: (s.next).2.outputs k

/-- The state of the sequence after `k` calls to `next()`. -/
def RandomSequence.skip : RandomSequence → Nat → RandomSequence
  | s, 0 => s
  | s, Nat.succ k => (s.next).2.skip k

/-- The full output stream of `RandomSequence(n, seed)` over its `n` calls. -/
def permList (n seed : Nat) : List Nat :=
  (RandomSequence.new n seed).outputs n

/-- The `k`-th value drawn from `RandomSequence(n, seed)`. -/
def nthDraw (n seed k : Nat) : Nat :=
  (((RandomSequence.new n seed).skip k).next).1

/-- Apply a list of index/value writes to a byte list, in order (the
shape of every per-index assignment loop of codec.js). -/
def setList (init : List Nat) (ws : List (Nat × Nat)) : List Nat :=
  ws.foldl (fun d w => d.set w.1 w.2) init

/-- Raw RGBA raster: the `ImageData` consumed and produced by every
codec — width, height and the flat `[R,G,B,A,...]` byte array. -/
structure ImageData where
  width : Nat
  height : Nat
  data : List Nat
deriving DecidableEq

/-- Storing into a `Uint8ClampedArray` clamps the value to `[0, 255]`
(byte inputs pass through unchanged). -/
def clampByte (v : Nat) : Nat := min v 255

/-- One step of `InvertCodec._invertColor`: the JS `~v & 0xFF` — 32-bit
bitwise complement masked to the low byte. -/
def invertByte (v : Nat) : Nat := (4294967295 - v % 4294967296) % 256

/-- The loop of `InvertCodec._invertColor`: walk the data four bytes at
a time, complementing R, G and B and leaving the alpha byte alone
(trailing fragments shorter than a full pixel match the out-of-range
behaviour of the JS typed-array writes). -/
def invertLoop : List Nat → List Nat
  | r :: g :: b :: a :: rest =>
      invertByte r :: invertByte g :: invertByte b :: a :: invertLoop rest
  | [r, g, b] => [invertByte r, invertByte g, invertByte b]
  | [r, g] => [invertByte r, invertByte g]
  | [r] => [invertByte r]
  | [] => []

/-- `InvertCodec._invertColor`: complement every R, G, B byte in place. -/
def InvertCodec.invertColor (img : ImageData) : ImageData :=
  { img with data := invertLoop img.data }

/-- `InvertCodec._doEncrypt`. -/
def InvertCodec.doEncrypt (img : ImageData) : ImageData :=
  InvertCodec.invertColor img

/-- `InvertCodec._doDecrypt`. -/
def InvertCodec.doDecrypt (img : ImageData) : ImageData :=
  InvertCodec.invertColor img

/-- The four codec classes registered in `codecClasses`. -/
inductive CodecClass where
  | InvertCodec
  | ShuffleRgbCodec
  | ShuffleBlockCodec
  | MosaicCodec
deriving DecidableEq

/-- The registry object `codecClasses`, with its four registrations in
source order. -/
def codecClasses : List (String × CodecClass) :=
  [("InvertCodec", CodecClass.InvertCodec),
   ("ShuffleRgbCodec", CodecClass.ShuffleRgbCodec),
   ("ShuffleBlockCodec", CodecClass.ShuffleBlockCodec),
   ("MosaicCodec", CodecClass.MosaicCodec)]

/-- What `new CodecClass()` can produce in `createCodec` under JS
semantics: an instance of one of the registered codec classes (or the
default), the plain object `new Object()` when the bracket access hits
the inherited `Object.prototype.constructor`, or a thrown `TypeError`
when it hits an inherited member that is not a constructor. -/
inductive CreateCodecResult where
  | codec (c : CodecClass)
  | plainObject
  | typeError
deriving DecidableEq

/-- The property names the object literal `{}` inherits from
`Object.prototype`.  Bracket access on `codecClasses` finds these even
though they are not own keys of the registry, and each of their values
is truthy, so the `|| ShuffleBlockCodec` fallback does not apply. -/
def objectPrototypeMembers : List String :=
  ["constructor", "hasOwnProperty", "isPrototypeOf", "propertyIsEnumerable",
   "toLocaleString", "toString", "valueOf",
   "__defineGetter__", "__defineSetter__", "__lookupGetter__",
   "__lookupSetter__", "__proto__"]

/-- `createCodec`: `codecClasses[getConfig().codecName] || ShuffleBlockCodec`,
then `new CodecClass()`.  `codecClasses` is a plain object literal, so
the bracket access consults the prototype chain after the own keys:
`"constructor"` finds `Object` and `new Object()` is a plain object;
the other inherited members of `Object.prototype` are not constructors,
so `new CodecClass()` throws a `TypeError`; only a name found neither
as an own key nor on the prototype chain is `undefined` (falsy) and
falls back to `ShuffleBlockCodec`. -/
def createCodec (codecName : String) : CreateCodecResult :=
  match codecClasses.lookup codecName with
  | some c => CreateCodecResult.codec c
  | none =>
      if codecName = "constructor" then CreateCodecResult.plainObject
      else if codecName ∈ objectPrototypeMembers then CreateCodecResult.typeError
      else CreateCodecResult.codec CodecClass.ShuffleBlockCodec

/-- `ShuffleRgbCodec._doEncrypt`: walk the pixels, scattering each R, G
and B value to the next three permutation positions of a scratch
buffer, then copy the scratch buffer back over the R, G, B slots in
natural order.  The loop `for (i = 0; i < data.length; i += 4)` runs
`⌈data.length / 4⌉` times. -/
def ShuffleRgbCodec.doEncrypt (seed : Nat) (img : ImageData) : ImageData :=
  let data := img.data
  let nRgbs := data.length / 4 * 3
  let scatter := (List.range ((data.length + 3) / 4)).foldl
    (fun (bs : List Nat × RandomSequence) i =>
      let n1 := bs.2.next
      let b1 := bs.1.set n1.1 (clampByte (data.getD (4 * i) 0))
      let n2 := n1.2.next
      let b2 := b1.set n2.1 (clampByte (data.getD (4 * i + 1) 0))
      let n3 := n2.2.next
      (b2.set n3.1 (clampByte (data.getD (4 * i + 2) 0)), n3.2))
    (List.replicate nRgbs 0, RandomSequence.new nRgbs seed)
  let buffer := scatter.1
  let data2 := (List.range ((data.length + 3) / 4)).foldl
    (fun d i =>
      ((d.set (4 * i) (clampByte (buffer.getD (3 * i) 0))).set (4 * i + 1)
        (clampByte (buffer.getD (3 * i + 1) 0))).set (4 * i + 2)
        (clampByte (buffer.getD (3 * i + 2) 0)))
    data
  { img with data := data2 }

/-- `ShuffleRgbCodec._doDecrypt`: gather the R, G, B values into a
scratch buffer in natural order, then walk the pixels reading back from
the permutation positions of a freshly seeded sequence. -/
def ShuffleRgbCodec.doDecrypt (seed : Nat) (img : ImageData) : ImageData :=
  let data := img.data
  let nRgbs := data.length / 4 * 3
  let buffer := (List.range ((data.length + 3) / 4)).foldl
    (fun b i =>
      ((b.set (3 * i) (clampByte (data.getD (4 * i) 0))).set (3 * i + 1)
        (clampByte (data.getD (4 * i + 1) 0))).set (3 * i + 2)
        (clampByte (data.getD (4 * i + 2) 0)))
    (List.replicate nRgbs 0)
  let gather := (List.range ((data.length + 3) / 4)).foldl
    (fun (ds : List Nat × RandomSequence) i =>
      let n1 := ds.2.next
      let d1 := ds.1.set (4 * i) (clampByte (buffer.getD n1.1 0))
      let n2 := n1.2.next
      let d2 := d1.set (4 * i + 1) (clampByte (buffer.getD n2.1 0))
      let n3 := n2.2.next
      (d2.set (4 * i + 2) (clampByte (buffer.getD n3.1 0)), n3.2))
    (data, RandomSequence.new nRgbs seed)
  { img with data := gather.1 }

/-- `ShuffleBlockCodec._copyBlock`: byte-for-byte rectangular copy of an
8×8 pixel block (8 rows of 32 bytes). -/
def ShuffleBlockCodec.copyBlock (dst : ImageData) (dstBlockX dstBlockY : Nat)
    (src : ImageData) (srcBlockX srcBlockY : Nat) : ImageData :=
  let newData := (List.range 8).foldl (fun d y =>
    (List.range (8 * 4)).foldl (fun d2 i =>
      d2.set ((dstBlockY * dst.width + dstBlockX) * 8 * 4 + y * (dst.width * 4) + i)
        (clampByte (src.data.getD
          ((srcBlockY * src.width + srcBlockX) * 8 * 4 + y * (src.width * 4) + i) 0))) d)
    dst.data
  { dst with data := newData }

/-- The write list performed by one `_copyBlock` call: destination
index and copied byte for each of the 8×32 positions. -/
def blockWrites (src : ImageData) (dstW dstBlockX dstBlockY srcBlockX srcBlockY : Nat) :
    List (Nat × Nat) :=
  ((List.range 8).map (fun y =>
    (List.range (8 * 4)).map (fun i =>
      ((dstBlockY * dstW + dstBlockX) * 8 * 4 + y * (dstW * 4) + i,
       clampByte (src.data.getD
         ((srcBlockY * src.width + srcBlockX) * 8 * 4 + y * (src.width * 4) + i) 0))))).flatten

/-- `ShuffleBlockCodec._doCommon`: crop to whole 8×8 blocks, allocate a
zero-filled result (`createImageData`), and for each source block in
row-major order draw the next permutation index and hand the copy to
`handleCopy`. -/
def ShuffleBlockCodec.doCommon
    (handleCopy : ImageData → Nat → Nat → Nat → Nat → ImageData)
    (seed : Nat) (img : ImageData) : ImageData :=
  let blockWidth := img.width / 8
  let blockHeight := img.height / 8
  let result : ImageData :=
    ⟨blockWidth * 8, blockHeight * 8,
      List.replicate (blockWidth * 8 * (blockHeight * 8) * 4) 0⟩
  let rs := (List.range blockHeight).foldl
    (fun (rs : ImageData × RandomSequence) blockY =>
      (List.range blockWidth).foldl
        (fun (rs2 : ImageData × RandomSequence) blockX =>
          let vs := rs2.2.next
          let index := vs.1
          let newBlockX := index % blockWidth
          let newBlockY := index / blockWidth
          (handleCopy rs2.1 blockX blockY newBlockX newBlockY, vs.2))
        rs)
    (result, RandomSequence.new (blockWidth * blockHeight) seed)
  rs.1

/-- `ShuffleBlockCodec._doEncrypt`: copy each source block to its
permuted position. -/
def ShuffleBlockCodec.doEncrypt (seed : Nat) (img : ImageData) : ImageData :=
  ShuffleBlockCodec.doCommon
    (fun result blockX blockY newBlockX newBlockY =>
      ShuffleBlockCodec.copyBlock result newBlockX newBlockY img blockX blockY)
    seed img

/-- `ShuffleBlockCodec._doDecrypt`: copy each permuted block back to its
natural position. -/
def ShuffleBlockCodec.doDecrypt (seed : Nat) (img : ImageData) : ImageData :=
  ShuffleBlockCodec.doCommon
    (fun result blockX blockY newBlockX newBlockY =>
      ShuffleBlockCodec.copyBlock result blockX blockY img newBlockX newBlockY)
    seed img

/-- `Math.round(total / width / height)` of `MosaicCodec._mosaic`: the
half-up integer rounding of the block mean, in exact arithmetic (the
double-precision evaluation agrees with the exact value on the whole
reachable range: totals of at most `255·32·32` over divisors of at most
`32` each). -/
def jsRound (total width height : Nat) : Nat :=
  (2 * total + width * height) / (2 * (width * height))

/-- `MosaicCodec._mosaic`: for each of the four channels of one block,
sum the channel over the block, round the mean, and overwrite the whole
block with it. -/
def MosaicCodec.mosaic (img : ImageData) (x y width height : Nat) : ImageData :=
  let newData := (List.range 4).foldl (fun d iChannel =>
    let total := ((List.range height).map (fun y2 =>
      ((List.range width).map (fun x2 =>
        d.getD ((y * img.width + x) * 4 + iChannel + y2 * (img.width * 4) + x2 * 4)
          0)).sum)).sum
    let average := jsRound total width height
    (List.range height).foldl (fun d2 y2 =>
      (List.range width).foldl (fun d3 x2 =>
        d3.set ((y * img.width + x) * 4 + iChannel + y2 * (img.width * 4) + x2 * 4)
          (clampByte average)) d2) d)
    img.data
  { img with data := newData }

/-- `MosaicCodec._doEncrypt`: partition the image into blocks of up to
32×32 pixels, the final row/column clipped to the remaining size, and
mosaic each block in row-major order. -/
def MosaicCodec.doEncrypt (img : ImageData) : ImageData :=
  (List.range ((img.height + 31) / 32)).foldl (fun im blockRow =>
    let y := 32 * blockRow
    let blockHeight := min 32 (img.height - y)
    (List.range ((img.width + 31) / 32)).foldl (fun im2 blockCol =>
      let x := 32 * blockCol
      let blockWidth := min 32 (img.width - x)
      MosaicCodec.mosaic im2 x y blockWidth blockHeight) im) img

/-- The channel sum of a block of the (unmodified) input image; used to
state what `MosaicCodec._mosaic` computes. -/
def blockSum (img : ImageData) (x y width height c : Nat) : Nat :=
  ((List.range height).map (fun y2 =>
    ((List.range width).map (fun x2 =>
      img.data.getD ((y * img.width + x) * 4 + c + y2 * (img.width * 4) + x2 * 4)
        0)).sum)).sum

/-- Big-endian `DataView.getUint32`: `none` models the thrown
`RangeError` when the read would run past the end of the buffer. -/
def readU32 (bytes : List Nat) (offset : Nat) : Option Nat :=
  if offset + 4 ≤ bytes.length then
    some (bytes.getD offset 0 * 16777216 + bytes.getD (offset + 1) 0 * 65536 +
      bytes.getD (offset + 2) 0 * 256 + bytes.getD (offset + 3) 0)
  else none

/-- The chunk walk of `MosaicCodec.decryptToUrl`: starting after the
signature, read each chunk's length and type and advance by
`8 + length + 4` until the `IEND` type code; `none` models a
`RangeError` escaping the loop (truncated container). -/
def MosaicCodec.skipChunks (bytes : List Nat) (offset : Nat) : Option Nat :=
  match h1 : readU32 bytes offset, readU32 bytes (offset + 4) with
  | some dataLength, some typeCode =>
      if typeCode = 0x49454E44 then some (offset + 8 + dataLength + 4)
      else MosaicCodec.skipChunks bytes (offset + 8 + dataLength + 4)
  | _, _ => none
termination_by bytes.length - offset
decreasing_by
  have h2 : offset + 4 ≤ bytes.length := by
    by_contra hc
    rw [readU32, if_neg hc] at h1
    exact Option.noConfusion h1
  omega

/-- `MosaicCodec.decryptToUrl`: check the PNG signature, skip the chunk
stream of the first image, and return the trailing payload; `none`
models the empty-string result of each failure path (bad signature,
`RangeError` caught by the surrounding `try`, or no bytes after
`IEND`). -/
def MosaicCodec.decryptToUrl (fileBuffer : List Nat) : Option (List Nat) :=
  match readU32 fileBuffer 0, readU32 fileBuffer 4 with
  | some magic1, some magic2 =>
      if magic1 ≠ 0x89504E47 ∨ magic2 ≠ 0x0D0A1A0A then none
      else
        match MosaicCodec.skipChunks fileBuffer 8 with
        | none => none
        | some offset =>
            if offset ≥ fileBuffer.length then none
            else some (fileBuffer.drop offset)
  | _, _ => none

/-- `MosaicCodec.encryptToBlob`: the final output is the rendered image
file bytes followed by the original input file bytes
(`new Blob([newImgBlob, this._fileBuffer])`).  Rendering the mosaicked
pixels to a PNG file is the external serialization collaborator, so the
rendered bytes are a parameter here. -/
def MosaicCodec.encryptToBlob (imageFileBytes fileBuffer : List Nat) : List Nat :=
  imageFileBytes ++ fileBuffer

/-- A PNG chunk as the container grammar describes it: type code, data,
and 4 CRC bytes (the length field is derived from the data). -/
structure PngChunk where
  ctype : Nat
  cdata : List Nat
  crc : List Nat
deriving DecidableEq

/-- A 32-bit big-endian length/type field. -/
def u32be (n : Nat) : List Nat :=
  [n / 16777216 % 256, n / 65536 % 256, n / 256 % 256, n % 256]

/-- Serialized chunk: 4-byte big-endian length, 4-byte type code, data,
4-byte CRC. -/
def PngChunk.chunkBytes (c : PngChunk) : List Nat :=
  u32be c.cdata.length ++ u32be c.ctype ++ c.cdata ++ c.crc

/-- The fixed 8-byte PNG signature `89 50 4E 47 0D 0A 1A 0A`. -/
def pngSignature : List Nat := [137, 80, 78, 71, 13, 10, 26, 10]

/-- A PNG byte stream: signature followed by the serialized chunks. -/
def pngBytes (chunks : List PngChunk) : List Nat :=
  pngSignature ++ (chunks.map PngChunk.chunkBytes).flatten

/-- The container invariant a rendered PNG satisfies: at least one
chunk, only the last chunk carries the `IEND` type code, and every
chunk has an encodable length, an encodable type code and a 4-byte
CRC. -/
def WellFormedPng (chunks : List PngChunk) : Prop :=
  chunks ≠ [] ∧
  (∀ c ∈ chunks.dropLast, c.ctype ≠ 0x49454E44) ∧
  (∀ c ∈ chunks,
    c.cdata.length < 4294967296 ∧ c.ctype < 4294967296 ∧ c.crc.length = 4) ∧
  (chunks.getLastD ⟨0, [], []⟩).ctype = 0x49454E44

instance (chunks : List PngChunk) : Decidable (WellFormedPng chunks) := by
  unfold WellFormedPng
  infer_instance

/-- The scratch buffer built by `ShuffleRgbCodec._doEncrypt`, expressed
as its write list: each R, G, B value sent to the next three
permutation positions. -/
def rgbBuffer (seed : Nat) (img : ImageData) : List Nat :=
  setList (List.replicate (img.data.length / 4 * 3) 0)
    (((List.range ((img.data.length + 3) / 4)).map (fun i =>
      [(nthDraw (img.data.length / 4 * 3) seed (3 * i),
        clampByte (img.data.getD (4 * i) 0)),
       (nthDraw (img.data.length / 4 * 3) seed (3 * i + 1),
        clampByte (img.data.getD (4 * i + 1) 0)),
       (nthDraw (img.data.length / 4 * 3) seed (3 * i + 2),
        clampByte (img.data.getD (4 * i + 2) 0))])).flatten)

/-- The scratch buffer built by `ShuffleRgbCodec._doDecrypt`: the R, G,
B values gathered in natural order. -/
def rgbGatherBuffer (img2 : ImageData) : List Nat :=
  setList (List.replicate (img2.data.length / 4 * 3) 0)
    (((List.range ((img2.data.length + 3) / 4)).map (fun i =>
      [(3 * i, clampByte (img2.data.getD (4 * i) 0)),
       (3 * i + 1, clampByte (img2.data.getD (4 * i + 1) 0)),
       (3 * i + 2, clampByte (img2.data.getD (4 * i + 2) 0))])).flatten)

/-- The per-channel block sum read by `MosaicCodec._mosaic` over a data
list with row stride `w` pixels. -/
def chanSum (d : List Nat) (w x y width height c : Nat) : Nat :=
  ((List.range height).map (fun y2 =>
    ((List.range width).map (fun x2 =>
      d.getD ((y * w + x) * 4 + c + y2 * (w * 4) + x2 * 4) 0)).sum)).sum

/-- One channel iteration of `MosaicCodec._mosaic`: sum the channel
over the block, round the mean, overwrite the block. -/
def mosaicChannel (w x y width height : Nat) (d : List Nat) (c : Nat) : List Nat :=
  (List.range height).foldl (fun d2 y2 =>
    (List.range width).foldl (fun d3 x2 =>
      d3.set ((y * w + x) * 4 + c + y2 * (w * 4) + x2 * 4)
        (clampByte (jsRound (chanSum d w x y width height c) width height))) d2) d

theorem RandomSequence.skip_succ_right (s : RandomSequence) (k : Nat) :
    s.skip (k + 1) = ((s.skip k).next).2 := by
  induction k generalizing s with
  | zero => rfl
  | succ k ih =>
    show ((s.next).2).skip (k + 1) = _
    rw [ih]
    rfl

theorem RandomSequence.outputs_succ_right (s : RandomSequence) (k : Nat) :
    s.outputs (k + 1) = s.outputs k ++ [((s.skip k).next).1] := by
  induction k generalizing s with
  | zero => rfl
  | succ k ih =>
    show (s.next).1 :: ((s.next).2.outputs (k + 1)) = _
    rw [ih]
    rfl

theorem RandomSequence.length_outputs (s : RandomSequence) (k : Nat) :
    (s.outputs k).length = k := by
  induction k generalizing s with
  | zero => rfl
  | succ k ih =>
    show ((s.next).1 :: (s.next).2.outputs k).length = k + 1
    simp [ih]

theorem RandomSequence.outputs_getElem (s : RandomSequence) (m k : Nat)
    (hk : k < m) (hk2 : k < (s.outputs m).length) :
    (s.outputs m)[k] = ((s.skip k).next).1 := by
  induction m with
  | zero => omega
  | succ m ih =>
    have heq := RandomSequence.outputs_succ_right s m
    rw [heq] at hk2
    rw [List.getElem_of_eq heq]
    rcases Nat.lt_or_ge k m with h | h
    · rw [List.getElem_append_left (by rw [RandomSequence.length_outputs]; exact h)]
      exact ih h _
    · have hkm : k = m := by omega
      subst hkm
      rw [List.getElem_append_right (by rw [RandomSequence.length_outputs])]
      simp [RandomSequence.length_outputs]

theorem RandomSequence.perm_helper (l : List Nat) (r : Nat) (hr : r < l.length) :
    l.Perm (l[r] :: l.eraseIdx r) := by
  conv_lhs => rw [← List.take_append_drop r l]
  rw [List.eraseIdx_eq_take_drop_succ]
  have hdrop : l[r] :: List.drop (r + 1) l = List.drop r l :=
    List.getElem_cons_drop l r hr
  rw [← hdrop]
  exact List.perm_middle

theorem RandomSequence.outputs_perm (k : Nat) :
    ∀ s : RandomSequence, s.remaining.length = k →
      (s.outputs k).Perm s.remaining := by
  induction k with
  | zero =>
    intro s hs
    rw [List.length_eq_zero] at hs
    rw [hs]
    exact List.Perm.refl []
  | succ k ih =>
    intro s hs
    have hne : s.remaining.length ≠ 0 := by omega
    have hpos : 0 < s.remaining.length := by omega
    show ((s.next).1 :: (s.next).2.outputs k).Perm s.remaining
    have hr : rngNext s.seed % s.remaining.length < s.remaining.length :=
      Nat.mod_lt _ hpos
    have hnext1 : (s.next).1 = s.remaining[rngNext s.seed % s.remaining.length] := by
      show s.remaining.getD _ 0 = _
      exact List.getD_eq_getElem s.remaining 0 hr
    have hnext2 : (s.next).2.remaining = s.remaining.eraseIdx (rngNext s.seed % s.remaining.length) := rfl
    have hlen : (s.next).2.remaining.length = k := by
      rw [hnext2, List.length_eraseIdx]
      simp [hr]
      omega
    have hperm := ih (s.next).2 hlen
    rw [hnext2] at hperm
    refine List.Perm.trans ?_ (RandomSequence.perm_helper s.remaining _ hr).symm
    rw [hnext1]
    exact List.Perm.cons _ hperm

theorem permList_perm_range (n seed : Nat) :
    (permList n seed).Perm (List.range n) := by
  have h := RandomSequence.outputs_perm n (RandomSequence.new n seed)
    (by simp [RandomSequence.new])
  exact h

theorem permList_length (n seed : Nat) : (permList n seed).length = n :=
  RandomSequence.length_outputs _ n

theorem permList_nodup (n seed : Nat) : (permList n seed).Nodup :=
  ((permList_perm_range n seed).symm).nodup (List.nodup_range n)

theorem permList_getElem_eq_nthDraw (n seed k : Nat) (hk : k < n)
    (hk2 : k < (permList n seed).length) :
    (permList n seed)[k] = nthDraw n seed k :=
  RandomSequence.outputs_getElem _ n k hk hk2

theorem nthDraw_lt (n seed k : Nat) (hk : k < n) : nthDraw n seed k < n := by
  have hk2 : k < (permList n seed).length := by rw [permList_length]; exact hk
  rw [← permList_getElem_eq_nthDraw n seed k hk hk2]
  have hmem : (permList n seed)[k] ∈ permList n seed := List.getElem_mem hk2
  have := (permList_perm_range n seed).mem_iff.mp hmem
  exact List.mem_range.mp this

theorem nthDraw_inj (n seed j k : Nat) (hj : j < n) (hk : k < n)
    (h : nthDraw n seed j = nthDraw n seed k) : j = k := by
  have hj2 : j < (permList n seed).length := by rw [permList_length]; exact hj
  have hk2 : k < (permList n seed).length := by rw [permList_length]; exact hk
  rw [← permList_getElem_eq_nthDraw n seed j hj hj2,
      ← permList_getElem_eq_nthDraw n seed k hk hk2] at h
  exact ((permList_nodup n seed).getElem_inj_iff).mp h

theorem length_setList (init : List Nat) (ws : List (Nat × Nat)) :
    (setList init ws).length = init.length := by
  induction ws generalizing init with
  | nil => rfl
  | cons w ws ih =>
    show (setList (init.set w.1 w.2) ws).length = _
    rw [ih, List.length_set]

theorem setList_append (init : List Nat) (ws1 ws2 : List (Nat × Nat)) :
    setList init (ws1 ++ ws2) = setList (setList init ws1) ws2 :=
  List.foldl_append _ _ _ _

theorem getD_set_ne (l : List Nat) (i p a : Nat) (h : i ≠ p) :
    (l.set i a).getD p 0 = l.getD p 0 := by
  rw [List.getD_eq_getElem?_getD, List.getD_eq_getElem?_getD, List.getElem?_set_ne h]

theorem getD_set_self (l : List Nat) (p a : Nat) (h : p < l.length) :
    (l.set p a).getD p 0 = a := by
  rw [List.getD_eq_getElem?_getD, List.getElem?_set_self h]
  rfl

theorem getD_setList_not_mem (init : List Nat) (ws : List (Nat × Nat)) (p : Nat)
    (h : p ∉ ws.map Prod.fst) :
    (setList init ws).getD p 0 = init.getD p 0 := by
  induction ws generalizing init with
  | nil => rfl
  | cons w ws ih =>
    simp only [List.map_cons, List.mem_cons] at h
    push_neg at h
    show (setList (init.set w.1 w.2) ws).getD p 0 = _
    rw [ih _ h.2, getD_set_ne _ _ _ _ (fun he => h.1 he.symm)]

theorem getD_setList_eq (init : List Nat) (ws : List (Nat × Nat)) (p v : Nat)
    (hp : p < init.length) (hmem : p ∈ ws.map Prod.fst)
    (hval : ∀ w ∈ ws, w.1 = p → w.2 = v) :
    (setList init ws).getD p 0 = v := by
  induction ws generalizing init with
  | nil => simp at hmem
  | cons w ws ih =>
    show (setList (init.set w.1 w.2) ws).getD p 0 = v
    by_cases hmem2 : p ∈ ws.map Prod.fst
    · exact ih _ (by rw [List.length_set]; exact hp) hmem2
        (fun w2 hw2 he => hval w2 (List.mem_cons_of_mem _ hw2) he)
    · simp only [List.map_cons, List.mem_cons] at hmem
      rcases hmem with hmem | hmem
      · rw [getD_setList_not_mem _ _ _ hmem2, ← hmem, getD_set_self _ _ _ hp]
        exact hval w (List.mem_cons_self w ws) hmem.symm
      · exact absurd hmem hmem2

theorem foldl_preserves {α β : Type} (P : α → Prop) (f : α → β → α)
    (hf : ∀ a b, P a → P (f a b)) :
    ∀ (l : List β) (a : α), P a → P (l.foldl f a) := by
  intro l
  induction l with
  | nil => intro a ha; exact ha
  | cons x xs ih => intro a ha; exact ih _ (hf a x ha)

theorem foldl_congr_mem {α β : Type} (l : List β) (f g : α → β → α) (a : α)
    (h : ∀ b x, x ∈ l → f b x = g b x) : l.foldl f a = l.foldl g a := by
  induction l generalizing a with
  | nil => rfl
  | cons x xs ih =>
    show xs.foldl f (f a x) = xs.foldl g (g a x)
    rw [h a x (List.mem_cons_self x xs)]
    exact ih _ (fun b y hy => h b y (List.mem_cons_of_mem _ hy))

theorem foldl_range_mul {β : Type} (g : β → Nat → Nat → β) (m n : Nat) (init : β) :
    (List.range m).foldl
        (fun b y => (List.range n).foldl (fun b2 x => g b2 x y) b) init
      = (List.range (m * n)).foldl (fun b k => g b (k % n) (k / n)) init := by
  rcases Nat.eq_zero_or_pos n with hn | hn
  · subst hn
    rw [Nat.mul_zero, List.range_zero, List.foldl_nil]
    induction m with
    | zero => rfl
    | succ m ih => rw [List.range_succ, List.foldl_append, ih]; rfl
  · induction m with
    | zero => rw [Nat.zero_mul]; rfl
    | succ m ih =>
      rw [List.range_succ, List.foldl_append, ih]
      have : (m + 1) * n = m * n + n := by ring
      rw [this, List.range_add, List.foldl_append, List.foldl_map]
      simp only [List.foldl_cons, List.foldl_nil]
      apply foldl_congr_mem
      intro b x hx
      rw [List.mem_range] at hx
      have h1 : (m * n + x) % n = x := by
        rw [Nat.add_comm, Nat.add_mul_mod_self_right]
        exact Nat.mod_eq_of_lt hx
      have h2 : (m * n + x) / n = m := by
        rw [Nat.add_comm, Nat.add_mul_div_right _ _ hn, Nat.div_eq_of_lt hx]
        omega
      rw [h1, h2]

theorem rowcol_inj (M r1 c1 r2 c2 : Nat) (h1 : c1 < M) (h2 : c2 < M)
    (he : r1 * M + c1 = r2 * M + c2) : r1 = r2 ∧ c1 = c2 := by
  have hM : 0 < M := by omega
  have d1 : (r1 * M + c1) / M = r1 := by
    rw [Nat.add_comm, Nat.add_mul_div_right _ _ hM, Nat.div_eq_of_lt h1]
    omega
  have d2 : (r2 * M + c2) / M = r2 := by
    rw [Nat.add_comm, Nat.add_mul_div_right _ _ hM, Nat.div_eq_of_lt h2]
    omega
  have hr : r1 = r2 := by rw [← d1, ← d2, he]
  subst hr
  exact ⟨rfl, by omega⟩

theorem addr_lt (a m b n : Nat) (ha : a < m) (hb : b < n) : a * n + b < m * n := by
  calc a * n + b < a * n + n := by omega
    _ = (a + 1) * n := by ring
    _ ≤ m * n := Nat.mul_le_mul (by omega) (le_refl n)

theorem invertByte_eq (v : Nat) (hv : v < 256) : invertByte v = 255 - v := by
  unfold invertByte
  omega

theorem invertByte_lt (v : Nat) : invertByte v < 256 := by
  unfold invertByte
  omega

theorem invertByte_invertByte (v : Nat) (hv : v < 256) :
    invertByte (invertByte v) = v := by
  rw [invertByte_eq v hv, invertByte_eq _ (by omega)]
  omega

theorem invertLoop_invertLoop (l : List Nat) (h : ∀ b ∈ l, b < 256) :
    invertLoop (invertLoop l) = l := by
  induction l using invertLoop.induct with
  | case1 r g b a rest ih =>
    simp only [invertLoop]
    rw [invertByte_invertByte r (h r (by simp)),
        invertByte_invertByte g (h g (by simp)),
        invertByte_invertByte b (h b (by simp)),
        ih (fun x hx => h x (by simp [hx]))]
  | case2 r g b =>
    simp only [invertLoop]
    rw [invertByte_invertByte r (h r (by simp)),
        invertByte_invertByte g (h g (by simp)),
        invertByte_invertByte b (h b (by simp))]
  | case3 r g =>
    simp only [invertLoop]
    rw [invertByte_invertByte r (h r (by simp)),
        invertByte_invertByte g (h g (by simp))]
  | case4 r =>
    simp only [invertLoop]
    rw [invertByte_invertByte r (h r (by simp))]
  | case5 => rfl

theorem invertLoop_getD (l : List Nat) (j : Nat) :
    (invertLoop l).getD j 0 =
      if j < l.length ∧ j % 4 ≠ 3 then invertByte (l.getD j 0)
      else l.getD j 0 := by
  induction l using invertLoop.induct generalizing j with
  | case1 r g b a rest ih =>
    match j with
    | 0 => simp [invertLoop]
    | 1 => simp [invertLoop]
    | 2 => simp [invertLoop]
    | 3 => simp [invertLoop]
    | (j + 4) =>
      simp only [invertLoop, List.getD_cons_succ, List.length_cons]
      rw [ih j]
      have hmod : (j + 4) % 4 = j % 4 := by omega
      by_cases hj : j < rest.length ∧ j % 4 ≠ 3
      · rw [if_pos hj, if_pos (by omega)]
      · rw [if_neg hj, if_neg (by omega)]
  | case2 r g b =>
    match j with
    | 0 => simp [invertLoop]
    | 1 => simp [invertLoop]
    | 2 => simp [invertLoop]
    | (j + 3) => simp [invertLoop, List.getD]
  | case3 r g =>
    match j with
    | 0 => simp [invertLoop]
    | 1 => simp [invertLoop]
    | (j + 2) => simp [invertLoop, List.getD]
  | case4 r =>
    match j with
    | 0 => simp [invertLoop]
    | (j + 1) => simp [invertLoop, List.getD]
  | case5 => simp [invertLoop]

theorem length_invertLoop (l : List Nat) : (invertLoop l).length = l.length := by
  induction l using invertLoop.induct with
  | case1 r g b a rest ih => simp [invertLoop, ih]
  | case2 r g b => simp [invertLoop]
  | case3 r g => simp [invertLoop]
  | case4 r => simp [invertLoop]
  | case5 => rfl

theorem setList_map {α : Type} (l : List α) (g : α → Nat × Nat) (init : List Nat) :
    setList init (l.map g) = l.foldl (fun d x => d.set (g x).1 (g x).2) init := by
  unfold setList
  rw [List.foldl_map]

theorem setList_flatten (lss : List (List (Nat × Nat))) (init : List Nat) :
    setList init lss.flatten = lss.foldl (fun d ls => setList d ls) init := by
  induction lss generalizing init with
  | nil => rfl
  | cons ls lss ih =>
    rw [List.flatten_cons, setList_append, List.foldl_cons, ih]

theorem ShuffleBlockCodec.copyBlock_width (dst : ImageData) (dbx dby : Nat)
    (src : ImageData) (sbx sby : Nat) :
    (ShuffleBlockCodec.copyBlock dst dbx dby src sbx sby).width = dst.width := by
  simp only [ShuffleBlockCodec.copyBlock]

theorem ShuffleBlockCodec.copyBlock_height (dst : ImageData) (dbx dby : Nat)
    (src : ImageData) (sbx sby : Nat) :
    (ShuffleBlockCodec.copyBlock dst dbx dby src sbx sby).height = dst.height := by
  simp only [ShuffleBlockCodec.copyBlock]

theorem ShuffleBlockCodec.copyBlock_data (dst : ImageData) (dbx dby : Nat)
    (src : ImageData) (sbx sby : Nat) :
    (ShuffleBlockCodec.copyBlock dst dbx dby src sbx sby).data
      = setList dst.data (blockWrites src dst.width dbx dby sbx sby) := by
  simp only [ShuffleBlockCodec.copyBlock, blockWrites]
  rw [setList_flatten, List.foldl_map]
  apply foldl_congr_mem
  intro d y hy
  rw [setList_map]

theorem ShuffleBlockCodec.copyBlock_data_length (dst : ImageData) (dbx dby : Nat)
    (src : ImageData) (sbx sby : Nat) :
    (ShuffleBlockCodec.copyBlock dst dbx dby src sbx sby).data.length
      = dst.data.length := by
  rw [ShuffleBlockCodec.copyBlock_data, length_setList]

theorem ShuffleBlockCodec.doCommon_eq
    (handleCopy : ImageData → Nat → Nat → Nat → Nat → ImageData)
    (seed : Nat) (img : ImageData) :
    ShuffleBlockCodec.doCommon handleCopy seed img =
      ((List.range (img.height / 8 * (img.width / 8))).foldl
        (fun (rs2 : ImageData × RandomSequence) k =>
          (handleCopy rs2.1 (k % (img.width / 8)) (k / (img.width / 8))
            ((rs2.2.next).1 % (img.width / 8)) ((rs2.2.next).1 / (img.width / 8)),
           (rs2.2.next).2))
        (⟨img.width / 8 * 8, img.height / 8 * 8,
          List.replicate (img.width / 8 * 8 * (img.height / 8 * 8) * 4) 0⟩,
         RandomSequence.new (img.width / 8 * (img.height / 8)) seed)).1 := by
  simp only [ShuffleBlockCodec.doCommon]
  exact congrArg Prod.fst (foldl_range_mul
    (fun (rs2 : ImageData × RandomSequence) blockX blockY =>
      (handleCopy rs2.1 blockX blockY ((rs2.2.next).1 % (img.width / 8))
        ((rs2.2.next).1 / (img.width / 8)), (rs2.2.next).2))
    (img.height / 8) (img.width / 8) _)

theorem ShuffleBlockCodec.doCommon_dims
    (handleCopy : ImageData → Nat → Nat → Nat → Nat → ImageData)
    (seed : Nat) (img : ImageData)
    (hpres : ∀ (im : ImageData) (bx by2 nbx nby : Nat),
      (handleCopy im bx by2 nbx nby).width = im.width ∧
      (handleCopy im bx by2 nbx nby).height = im.height ∧
      (handleCopy im bx by2 nbx nby).data.length = im.data.length) :
    (ShuffleBlockCodec.doCommon handleCopy seed img).width = img.width / 8 * 8 ∧
    (ShuffleBlockCodec.doCommon handleCopy seed img).height = img.height / 8 * 8 ∧
    (ShuffleBlockCodec.doCommon handleCopy seed img).data.length
      = img.width / 8 * 8 * (img.height / 8 * 8) * 4 := by
  rw [ShuffleBlockCodec.doCommon_eq]
  apply foldl_preserves (fun rs : ImageData × RandomSequence =>
      rs.1.width = img.width / 8 * 8 ∧ rs.1.height = img.height / 8 * 8 ∧
      rs.1.data.length = img.width / 8 * 8 * (img.height / 8 * 8) * 4)
  · intro a k ha
    obtain ⟨h1, h2, h3⟩ := hpres a.1 (k % (img.width / 8)) (k / (img.width / 8))
      ((a.2.next).1 % (img.width / 8)) ((a.2.next).1 / (img.width / 8))
    exact ⟨h1.trans ha.1, h2.trans ha.2.1, h3.trans ha.2.2⟩
  · exact ⟨rfl, rfl, List.length_replicate _ _⟩

theorem ShuffleBlockCodec.doEncrypt_dims (seed : Nat) (img : ImageData) :
    (ShuffleBlockCodec.doEncrypt seed img).width = img.width / 8 * 8 ∧
    (ShuffleBlockCodec.doEncrypt seed img).height = img.height / 8 * 8 ∧
    (ShuffleBlockCodec.doEncrypt seed img).data.length
      = img.width / 8 * 8 * (img.height / 8 * 8) * 4 := by
  unfold ShuffleBlockCodec.doEncrypt
  exact ShuffleBlockCodec.doCommon_dims _ seed img
    (fun im bx by2 nbx nby =>
      ⟨ShuffleBlockCodec.copyBlock_width im nbx nby img bx by2,
       ShuffleBlockCodec.copyBlock_height im nbx nby img bx by2,
       ShuffleBlockCodec.copyBlock_data_length im nbx nby img bx by2⟩)

theorem ShuffleBlockCodec.doDecrypt_dims (seed : Nat) (img : ImageData) :
    (ShuffleBlockCodec.doDecrypt seed img).width = img.width / 8 * 8 ∧
    (ShuffleBlockCodec.doDecrypt seed img).height = img.height / 8 * 8 ∧
    (ShuffleBlockCodec.doDecrypt seed img).data.length
      = img.width / 8 * 8 * (img.height / 8 * 8) * 4 := by
  unfold ShuffleBlockCodec.doDecrypt
  exact ShuffleBlockCodec.doCommon_dims _ seed img
    (fun im bx by2 nbx nby =>
      ⟨ShuffleBlockCodec.copyBlock_width im bx by2 img nbx nby,
       ShuffleBlockCodec.copyBlock_height im bx by2 img nbx nby,
       ShuffleBlockCodec.copyBlock_data_length im bx by2 img nbx nby⟩)

/-- C1: for every pair `(n, seed)`, the sequence constructed with
`(n, seed)` yields, across exactly `n` successive calls to `next()`,
every integer in `[0, n)` exactly once (a bijection on `[0, n)`), and
the order of those `n` outputs is fully determined by `(n, seed)`: two
independently constructed sequences with identical `(n, seed)`, driven
with the same call pattern, produce identical output streams. -/
theorem claim_C1_permutation_bijection (n seed : Nat) :
    (permList n seed).length = n ∧ (permList n seed).Perm (List.range n) ∧
    (∀ s1 s2 : RandomSequence, s1 = RandomSequence.new n seed →
      s2 = RandomSequence.new n seed → s1.outputs n = s2.outputs n) := by
  refine ⟨permList_length n seed, permList_perm_range n seed, ?_⟩
  intro s1 s2 h1 h2
  rw [h1, h2]

/-- Witness for C1 at `(n, seed) = (5, 7)`. -/
theorem claim_C1_permutation_bijection_witness :
    (permList 5 7).length = 5 ∧ (permList 5 7).Perm (List.range 5) ∧
    (RandomSequence.new 5 7).outputs 5 = (RandomSequence.new 5 7).outputs 5 :=
  ⟨(claim_C1_permutation_bijection 5 7).1,
   (claim_C1_permutation_bijection 5 7).2.1,
   (claim_C1_permutation_bijection 5 7).2.2 _ _ rfl rfl⟩

/-- C6: `InvertCodec` encode and decode are the same operation — each
replaces every R, G and B byte by its bitwise complement
(`value XOR 0xFF`, i.e. `255 - value` for a byte) and leaves every
alpha byte unchanged — so applying the operation twice restores the
original buffer exactly, byte for byte. -/
theorem claim_C6_invert_involution (img : ImageData) (npix : Nat)
    (hlen : img.data.length = 4 * npix)
    (hbytes : ∀ b ∈ img.data, b < 256) :
    InvertCodec.doEncrypt img = InvertCodec.doDecrypt img ∧
    (∀ j, j < img.data.length → j % 4 ≠ 3 →
      (InvertCodec.doEncrypt img).data.getD j 0 = 255 - img.data.getD j 0) ∧
    (∀ j, j % 4 = 3 →
      (InvertCodec.doEncrypt img).data.getD j 0 = img.data.getD j 0) ∧
    InvertCodec.doDecrypt (InvertCodec.doEncrypt img) = img := by
  refine ⟨rfl, ?_, ?_, ?_⟩
  · intro j hj hj4
    show (invertLoop img.data).getD j 0 = _
    rw [invertLoop_getD, if_pos ⟨hj, hj4⟩]
    have hb : img.data.getD j 0 < 256 := by
      rw [List.getD_eq_getElem _ _ hj]
      exact hbytes _ (List.getElem_mem hj)
    exact invertByte_eq _ hb
  · intro j hj4
    show (invertLoop img.data).getD j 0 = _
    rw [invertLoop_getD]
    rw [if_neg (by omega)]
  · show InvertCodec.invertColor (InvertCodec.invertColor img) = img
    unfold InvertCodec.invertColor
    rw [invertLoop_invertLoop img.data hbytes]

/-- Witness for C6 at a one-pixel buffer. -/
theorem claim_C6_invert_involution_witness :
    InvertCodec.doEncrypt ⟨1, 1, [1, 2, 3, 4]⟩
        = InvertCodec.doDecrypt ⟨1, 1, [1, 2, 3, 4]⟩ ∧
    (InvertCodec.doEncrypt ⟨1, 1, [1, 2, 3, 4]⟩).data.getD 0 0 = 255 - 1 ∧
    (InvertCodec.doEncrypt ⟨1, 1, [1, 2, 3, 4]⟩).data.getD 3 0 = 4 ∧
    InvertCodec.doDecrypt (InvertCodec.doEncrypt ⟨1, 1, [1, 2, 3, 4]⟩)
        = ⟨1, 1, [1, 2, 3, 4]⟩ := by
  have h := claim_C6_invert_involution ⟨1, 1, [1, 2, 3, 4]⟩ 1 (by decide) (by decide)
  exact ⟨h.1, h.2.1 0 (by decide) (by decide), h.2.2.1 3 (by decide), h.2.2.2⟩

/-- C7: the output of `ShuffleBlockCodec` encode (and decode) has
dimensions exactly `⌊width/8⌋·8` by `⌊height/8⌋·8` — trailing rows and
columns are dropped, not padded; in particular a 10×10 input encodes
to an 8×8 output. -/
theorem claim_C7_shuffleBlock_crop (seed : Nat) (img : ImageData) :
    (ShuffleBlockCodec.doEncrypt seed img).width = img.width / 8 * 8 ∧
    (ShuffleBlockCodec.doEncrypt seed img).height = img.height / 8 * 8 ∧
    (ShuffleBlockCodec.doEncrypt seed img).data.length
      = img.width / 8 * 8 * (img.height / 8 * 8) * 4 ∧
    (ShuffleBlockCodec.doDecrypt seed img).width = img.width / 8 * 8 ∧
    (ShuffleBlockCodec.doDecrypt seed img).height = img.height / 8 * 8 ∧
    (ShuffleBlockCodec.doDecrypt seed img).data.length
      = img.width / 8 * 8 * (img.height / 8 * 8) * 4 := by
  obtain ⟨e1, e2, e3⟩ := ShuffleBlockCodec.doEncrypt_dims seed img
  obtain ⟨d1, d2, d3⟩ := ShuffleBlockCodec.doDecrypt_dims seed img
  exact ⟨e1, e2, e3, d1, d2, d3⟩

theorem createCodec_unknown (codecName : String)
    (h1 : codecName ≠ "InvertCodec") (h2 : codecName ≠ "ShuffleRgbCodec")
    (h3 : codecName ≠ "ShuffleBlockCodec") (h4 : codecName ≠ "MosaicCodec")
    (h5 : codecName ∉ objectPrototypeMembers) :
    createCodec codecName = CreateCodecResult.codec CodecClass.ShuffleBlockCodec := by
  have e1 : (codecName == "InvertCodec") = false := beq_eq_false_iff_ne.mpr h1
  have e2 : (codecName == "ShuffleRgbCodec") = false := beq_eq_false_iff_ne.mpr h2
  have e3 : (codecName == "ShuffleBlockCodec") = false := beq_eq_false_iff_ne.mpr h3
  have e4 : (codecName == "MosaicCodec") = false := beq_eq_false_iff_ne.mpr h4
  have hc : codecName ≠ "constructor" := by
    intro hh
    apply h5
    rw [hh]
    exact List.mem_cons_self _ _
  simp [createCodec, codecClasses, List.lookup, e1, e2, e3, e4, hc, h5]

/-- C9 (amended): for every configured codec selector string that is
neither one of the four registered names nor an inherited member name
of `Object.prototype`, `createCodec` yields the block-shuffle codec
class (`ShuffleBlockCodec` is the default). -/
theorem claim_C9_createCodec_default (codecName : String)
    (h : codecName ∉ ["InvertCodec", "ShuffleRgbCodec",
      "ShuffleBlockCodec", "MosaicCodec"])
    (hproto : codecName ∉ objectPrototypeMembers) :
    createCodec codecName = CreateCodecResult.codec CodecClass.ShuffleBlockCodec := by
  simp only [List.mem_cons, List.not_mem_nil, or_false, not_or] at h
  exact createCodec_unknown codecName h.1 h.2.1 h.2.2.1 h.2.2.2 hproto

/-- Counterexample to C9 as stated: the selector `"constructor"` is
not one of the four registered names, yet the bracket access finds the
inherited `Object.prototype.constructor` (which is truthy), so
`createCodec` builds `new Object()` instead of defaulting to the
block-shuffle codec. -/
theorem claim_C9_createCodec_counterexample :
    "constructor" ∉ ["InvertCodec", "ShuffleRgbCodec",
      "ShuffleBlockCodec", "MosaicCodec"] ∧
    createCodec "constructor" = CreateCodecResult.plainObject ∧
    createCodec "constructor" ≠ CreateCodecResult.codec CodecClass.ShuffleBlockCodec :=
  ⟨by decide, by decide, by decide⟩

/-- Witness for C9 (amended) at the unknown selector `"foo"`. -/
theorem claim_C9_createCodec_default_witness :
    ("foo" ∉ ["InvertCodec", "ShuffleRgbCodec",
      "ShuffleBlockCodec", "MosaicCodec"]) ∧
    "foo" ∉ objectPrototypeMembers ∧
    createCodec "foo" = CreateCodecResult.codec CodecClass.ShuffleBlockCodec :=
  ⟨by decide, by decide, claim_C9_createCodec_default "foo" (by decide) (by decide)⟩

theorem imageData_eq (a b : ImageData) (h1 : a.width = b.width)
    (h2 : a.height = b.height) (h3 : a.data = b.data) : a = b := by
  cases a
  cases b
  simp_all

theorem ShuffleBlockCodec.copyBlock_eq (dst : ImageData) (dbx dby : Nat)
    (src : ImageData) (sbx sby : Nat) :
    ShuffleBlockCodec.copyBlock dst dbx dby src sbx sby
      = ImageData.mk dst.width dst.height
          (setList dst.data (blockWrites src dst.width dbx dby sbx sby)) := by
  apply imageData_eq
  · exact ShuffleBlockCodec.copyBlock_width dst dbx dby src sbx sby
  · exact ShuffleBlockCodec.copyBlock_height dst dbx dby src sbx sby
  · show _ = (ImageData.mk dst.width dst.height
      (setList dst.data (blockWrites src dst.width dbx dby sbx sby))).data
    rw [ShuffleBlockCodec.copyBlock_data]

theorem RandomSequence.skip_add (s : RandomSequence) (m k : Nat) :
    s.skip (m + k) = (s.skip m).skip k := by
  induction k with
  | zero => rfl
  | succ k ih =>
    rw [← Nat.add_assoc, RandomSequence.skip_succ_right, ih,
      RandomSequence.skip_succ_right]

theorem fold1_writes (init : ImageData) (seq0 : RandomSequence)
    (W : Nat → Nat → List (Nat × Nat))
    (hc : ImageData → Nat → Nat → Nat → Nat → ImageData)
    (bw : Nat)
    (hstep : ∀ (im : ImageData) (s : RandomSequence) (k : Nat),
      im.width = init.width →
      hc im (k % bw) (k / bw) ((s.next).1 % bw) ((s.next).1 / bw)
        = ImageData.mk im.width im.height (setList im.data (W k ((s.next).1)))) :
    ∀ t, (List.range t).foldl
        (fun (rs2 : ImageData × RandomSequence) k =>
          (hc rs2.1 (k % bw) (k / bw) ((rs2.2.next).1 % bw) ((rs2.2.next).1 / bw),
           (rs2.2.next).2))
        (init, seq0)
      = (ImageData.mk init.width init.height
          (setList init.data
            (((List.range t).map (fun k => W k (((seq0.skip k).next).1))).flatten)),
         seq0.skip t) := by
  intro t
  induction t with
  | zero =>
    apply Prod.ext
    · exact imageData_eq _ _ rfl rfl rfl
    · rfl
  | succ t ih =>
    rw [List.range_succ, List.foldl_append, ih]
    simp only [List.foldl_cons, List.foldl_nil]
    rw [hstep (ImageData.mk init.width init.height
          (setList init.data
            (((List.range t).map (fun k => W k (((seq0.skip k).next).1))).flatten)))
        (seq0.skip t) t rfl]
    apply Prod.ext
    · refine imageData_eq _ _ rfl rfl ?_
      show setList (setList init.data _) _ = _
      rw [← setList_append, List.map_append, List.flatten_append]
      simp only [List.map_cons, List.map_nil, List.flatten_cons, List.flatten_nil,
        List.append_nil]
    · show ((seq0.skip t).next).2 = seq0.skip (t + 1)
      rw [RandomSequence.skip_succ_right]

theorem ShuffleBlockCodec.doEncrypt_eq (seed : Nat) (img : ImageData) :
    ShuffleBlockCodec.doEncrypt seed img
      = ImageData.mk (img.width / 8 * 8) (img.height / 8 * 8)
          (setList (List.replicate (img.width / 8 * 8 * (img.height / 8 * 8) * 4) 0)
            (((List.range (img.height / 8 * (img.width / 8))).map (fun k =>
              blockWrites img (img.width / 8 * 8)
                (nthDraw (img.width / 8 * (img.height / 8)) seed k % (img.width / 8))
                (nthDraw (img.width / 8 * (img.height / 8)) seed k / (img.width / 8))
                (k % (img.width / 8)) (k / (img.width / 8)))).flatten)) := by
  unfold ShuffleBlockCodec.doEncrypt
  rw [ShuffleBlockCodec.doCommon_eq]
  have h := fold1_writes
    (ImageData.mk (img.width / 8 * 8) (img.height / 8 * 8)
      (List.replicate (img.width / 8 * 8 * (img.height / 8 * 8) * 4) 0))
    (RandomSequence.new (img.width / 8 * (img.height / 8)) seed)
    (fun k d => blockWrites img (img.width / 8 * 8) (d % (img.width / 8))
      (d / (img.width / 8)) (k % (img.width / 8)) (k / (img.width / 8)))
    (fun result blockX blockY newBlockX newBlockY =>
      ShuffleBlockCodec.copyBlock result newBlockX newBlockY img blockX blockY)
    (img.width / 8)
    (fun im s k hw0 => by
      show ShuffleBlockCodec.copyBlock im ((s.next).1 % (img.width / 8))
        ((s.next).1 / (img.width / 8)) img (k % (img.width / 8))
        (k / (img.width / 8)) = _
      have hw1 : im.width = img.width / 8 * 8 := hw0
      rw [ShuffleBlockCodec.copyBlock_eq, hw1])
    (img.height / 8 * (img.width / 8))
  exact congrArg Prod.fst h

theorem ShuffleBlockCodec.doDecrypt_eq (seed : Nat) (img : ImageData) :
    ShuffleBlockCodec.doDecrypt seed img
      = ImageData.mk (img.width / 8 * 8) (img.height / 8 * 8)
          (setList (List.replicate (img.width / 8 * 8 * (img.height / 8 * 8) * 4) 0)
            (((List.range (img.height / 8 * (img.width / 8))).map (fun k =>
              blockWrites img (img.width / 8 * 8)
                (k % (img.width / 8)) (k / (img.width / 8))
                (nthDraw (img.width / 8 * (img.height / 8)) seed k % (img.width / 8))
                (nthDraw (img.width / 8 * (img.height / 8)) seed k / (img.width / 8)))).flatten)) := by
  unfold ShuffleBlockCodec.doDecrypt
  rw [ShuffleBlockCodec.doCommon_eq]
  have h := fold1_writes
    (ImageData.mk (img.width / 8 * 8) (img.height / 8 * 8)
      (List.replicate (img.width / 8 * 8 * (img.height / 8 * 8) * 4) 0))
    (RandomSequence.new (img.width / 8 * (img.height / 8)) seed)
    (fun k d => blockWrites img (img.width / 8 * 8) (k % (img.width / 8))
      (k / (img.width / 8)) (d % (img.width / 8)) (d / (img.width / 8)))
    (fun result blockX blockY newBlockX newBlockY =>
      ShuffleBlockCodec.copyBlock result blockX blockY img newBlockX newBlockY)
    (img.width / 8)
    (fun im s k hw0 => by
      show ShuffleBlockCodec.copyBlock im (k % (img.width / 8))
        (k / (img.width / 8)) img ((s.next).1 % (img.width / 8))
        ((s.next).1 / (img.width / 8)) = _
      have hw1 : im.width = img.width / 8 * 8 := hw0
      rw [ShuffleBlockCodec.copyBlock_eq, hw1])
    (img.height / 8 * (img.width / 8))
  exact congrArg Prod.fst h

theorem mem_blockWrites (src : ImageData) (dstW dbx dby sbx sby : Nat) (w : Nat × Nat) :
    w ∈ blockWrites src dstW dbx dby sbx sby ↔
      ∃ y, y < 8 ∧ ∃ i, i < 32 ∧
        w = ((dby * dstW + dbx) * 8 * 4 + y * (dstW * 4) + i,
          clampByte (src.data.getD
            ((sby * src.width + sbx) * 8 * 4 + y * (src.width * 4) + i) 0)) := by
  unfold blockWrites
  rw [List.mem_flatten]
  constructor
  · rintro ⟨chunk, hchunk, hwc⟩
    rw [List.mem_map] at hchunk
    obtain ⟨y, hy, rfl⟩ := hchunk
    rw [List.mem_range] at hy
    rw [List.mem_map] at hwc
    obtain ⟨i, hi, rfl⟩ := hwc
    rw [List.mem_range] at hi
    exact ⟨y, hy, i, by omega, rfl⟩
  · rintro ⟨y, hy, i, hi, rfl⟩
    refine ⟨_, List.mem_map.mpr ⟨y, List.mem_range.mpr hy, rfl⟩, ?_⟩
    exact List.mem_map.mpr ⟨i, List.mem_range.mpr (by omega), rfl⟩

theorem blocks_setList_getD (src : ImageData) (init : List Nat) (bw bh : Nat)
    (F G : Nat → Nat)
    (hlen : init.length = bw * 8 * (bh * 8) * 4)
    (hF : ∀ k, k < bh * bw → F k < bw * bh)
    (hFinj : ∀ k1 k2, k1 < bh * bw → k2 < bh * bw → F k1 = F k2 → k1 = k2)
    (k y i : Nat) (hk : k < bh * bw) (hy : y < 8) (hi : i < 32) :
    (setList init
        (((List.range (bh * bw)).map (fun k2 =>
          blockWrites src (bw * 8) (F k2 % bw) (F k2 / bw)
            (G k2 % bw) (G k2 / bw))).flatten)).getD
      ((F k / bw * 8 + y) * (bw * 32) + (F k % bw * 32 + i)) 0
      = clampByte (src.data.getD
          ((G k / bw * src.width + G k % bw) * 8 * 4 + y * (src.width * 4) + i) 0) := by
  have hbw : 0 < bw := by
    rcases Nat.eq_zero_or_pos bw with h | h
    · subst h; simp at hk
    · exact h
  have hFk := hF k hk
  have hrow : F k / bw * 8 + y < bh * 8 := by
    have hq : F k / bw < bh := by
      rw [Nat.div_lt_iff_lt_mul hbw]
      calc F k < bw * bh := hFk
        _ = bh * bw := Nat.mul_comm _ _
    omega
  have hcol : F k % bw * 32 + i < bw * 32 := by
    have := Nat.mod_lt (F k) hbw
    omega
  apply getD_setList_eq
  · rw [hlen]
    calc (F k / bw * 8 + y) * (bw * 32) + (F k % bw * 32 + i)
        < bh * 8 * (bw * 32) := addr_lt _ _ _ _ hrow hcol
      _ = bw * 8 * (bh * 8) * 4 := by ring
  · rw [List.mem_map]
    refine ⟨((F k / bw * (bw * 8) + F k % bw) * 8 * 4 + y * (bw * 8 * 4) + i,
      clampByte (src.data.getD
        ((G k / bw * src.width + G k % bw) * 8 * 4 + y * (src.width * 4) + i) 0)),
      ?_, by ring⟩
    rw [List.mem_flatten]
    refine ⟨blockWrites src (bw * 8) (F k % bw) (F k / bw) (G k % bw) (G k / bw),
      List.mem_map.mpr ⟨k, List.mem_range.mpr hk, rfl⟩, ?_⟩
    rw [mem_blockWrites]
    exact ⟨y, hy, i, hi, rfl⟩
  · intro w hw hwp
    rw [List.mem_flatten] at hw
    obtain ⟨chunk, hchunk, hwc⟩ := hw
    rw [List.mem_map] at hchunk
    obtain ⟨k2, hk2, rfl⟩ := hchunk
    rw [List.mem_range] at hk2
    rw [mem_blockWrites] at hwc
    obtain ⟨y2, hy2, i2, hi2, rfl⟩ := hwc
    simp only [] at hwp ⊢
    have hdec : (F k2 / bw * (bw * 8) + F k2 % bw) * 8 * 4 + y2 * (bw * 8 * 4) + i2
        = (F k2 / bw * 8 + y2) * (bw * 32) + (F k2 % bw * 32 + i2) := by ring
    rw [hdec] at hwp
    have hcol2 : F k2 % bw * 32 + i2 < bw * 32 := by
      have := Nat.mod_lt (F k2) hbw
      omega
    obtain ⟨hrows, hcols⟩ := rowcol_inj _ _ _ _ _ hcol2 hcol hwp
    have hdy : F k2 / bw = F k / bw := by omega
    have hy2y : y2 = y := by omega
    have hmi : F k2 % bw = F k % bw := by omega
    have hi2i : i2 = i := by omega
    have hFeq : F k2 = F k := by
      have e1 := Nat.div_add_mod (F k2) bw
      have e2 := Nat.div_add_mod (F k) bw
      rw [hdy, hmi] at e1
      omega
    have hk2k : k2 = k := hFinj k2 k hk2 hk hFeq
    subst hk2k
    rw [hy2y, hi2i]

theorem clampByte_id (v : Nat) (h : v < 256) : clampByte v = v := by
  unfold clampByte
  omega

theorem getD_lt_256 (l : List Nat) (h : ∀ b ∈ l, b < 256) (j : Nat) :
    l.getD j 0 < 256 := by
  rcases Nat.lt_or_ge j l.length with hj | hj
  · rw [List.getD_eq_getElem _ _ hj]
    exact h _ (List.getElem_mem hj)
  · rw [List.getD_eq_getElem?_getD, List.getElem?_eq_none hj]
    exact Nat.lt_of_sub_eq_succ rfl

theorem baddr_surj (bw bh p : Nat) (hp : p < bw * 8 * (bh * 8) * 4) :
    ∃ k, k < bh * bw ∧ ∃ y, y < 8 ∧ ∃ i, i < 32 ∧
      p = (k / bw * 8 + y) * (bw * 32) + (k % bw * 32 + i) := by
  have hbw : 0 < bw := by
    rcases Nat.eq_zero_or_pos bw with h | h
    · subst h; simp at hp
    · exact h
  have hbh : 0 < bh := by
    rcases Nat.eq_zero_or_pos bh with h | h
    · subst h; simp at hp
    · exact h
  have hM : 0 < bw * 32 := by omega
  have hcol : p % (bw * 32) < bw * 32 := Nat.mod_lt _ hM
  have hrow : p / (bw * 32) < bh * 8 := by
    rw [Nat.div_lt_iff_lt_mul hM]
    calc p < bw * 8 * (bh * 8) * 4 := hp
      _ = bh * 8 * (bw * 32) := by ring
  have hcd : p % (bw * 32) / 32 < bw := by
    rw [Nat.div_lt_iff_lt_mul (by omega : (0:Nat) < 32)]
    exact hcol
  have hrd : p / (bw * 32) / 8 < bh := by
    rw [Nat.div_lt_iff_lt_mul (by omega : (0:Nat) < 8)]
    exact hrow
  refine ⟨p / (bw * 32) / 8 * bw + p % (bw * 32) / 32,
    addr_lt _ _ _ _ hrd hcd, p / (bw * 32) % 8, Nat.mod_lt _ (by omega),
    p % (bw * 32) % 32, Nat.mod_lt _ (by omega), ?_⟩
  have hkdiv : (p / (bw * 32) / 8 * bw + p % (bw * 32) / 32) / bw = p / (bw * 32) / 8 := by
    rw [Nat.add_comm, Nat.add_mul_div_right _ _ hbw, Nat.div_eq_of_lt hcd]
    omega
  have hkmod : (p / (bw * 32) / 8 * bw + p % (bw * 32) / 32) % bw = p % (bw * 32) / 32 := by
    rw [Nat.add_comm, Nat.add_mul_mod_self_right]
    exact Nat.mod_eq_of_lt hcd
  rw [hkdiv, hkmod]
  have h1 : p / (bw * 32) / 8 * 8 + p / (bw * 32) % 8 = p / (bw * 32) := by omega
  have h2 : p % (bw * 32) / 32 * 32 + p % (bw * 32) % 32 = p % (bw * 32) := by omega
  rw [h1, h2]
  rw [Nat.mul_comm (p / (bw * 32)) (bw * 32)]
  exact (Nat.div_add_mod p (bw * 32)).symm

theorem shuffleBlock_encrypt_getD (seed : Nat) (img : ImageData) (bw bh k y i : Nat)
    (hw2 : img.width = bw * 8) (hh2 : img.height = bh * 8)
    (hk : k < bh * bw) (hy : y < 8) (hi : i < 32) :
    (ShuffleBlockCodec.doEncrypt seed img).data.getD
        ((nthDraw (bw * bh) seed k / bw * 8 + y) * (bw * 32)
          + (nthDraw (bw * bh) seed k % bw * 32 + i)) 0
      = clampByte (img.data.getD
          ((k / bw * img.width + k % bw) * 8 * 4 + y * (img.width * 4) + i) 0) := by
  have he1 : img.width / 8 = bw := by omega
  have he2 : img.height / 8 = bh := by omega
  rw [ShuffleBlockCodec.doEncrypt_eq, he1, he2]
  exact blocks_setList_getD img _ bw bh (fun k2 => nthDraw (bw * bh) seed k2)
    (fun k2 => k2) (List.length_replicate _ _)
    (fun k2 hk2 => nthDraw_lt _ seed k2 (lt_of_lt_of_eq hk2 (Nat.mul_comm bh bw)))
    (fun k1 k2 hk1 hk2 hFe => nthDraw_inj _ seed k1 k2
      (lt_of_lt_of_eq hk1 (Nat.mul_comm bh bw))
      (lt_of_lt_of_eq hk2 (Nat.mul_comm bh bw)) hFe)
    k y i hk hy hi

theorem shuffleBlock_decrypt_getD (seed : Nat) (img2 : ImageData) (bw bh k y i : Nat)
    (hw2 : img2.width = bw * 8) (hh2 : img2.height = bh * 8)
    (hk : k < bh * bw) (hy : y < 8) (hi : i < 32) :
    (ShuffleBlockCodec.doDecrypt seed img2).data.getD
        ((k / bw * 8 + y) * (bw * 32) + (k % bw * 32 + i)) 0
      = clampByte (img2.data.getD
          ((nthDraw (bw * bh) seed k / bw * img2.width
            + nthDraw (bw * bh) seed k % bw) * 8 * 4
            + y * (img2.width * 4) + i) 0) := by
  have he1 : img2.width / 8 = bw := by omega
  have he2 : img2.height / 8 = bh := by omega
  rw [ShuffleBlockCodec.doDecrypt_eq, he1, he2]
  exact blocks_setList_getD img2 _ bw bh (fun k2 => k2)
    (fun k2 => nthDraw (bw * bh) seed k2) (List.length_replicate _ _)
    (fun k2 hk2 => lt_of_lt_of_eq hk2 (Nat.mul_comm bh bw))
    (fun k1 k2 hk1 hk2 hFe => hFe)
    k y i hk hy hi

/-- C2: for every RGBA buffer whose width and height are exact
multiples of 8, and every seed, `ShuffleBlockCodec` decode applied to
the result of `ShuffleBlockCodec` encode with the same seed (each
drawing its own permutation sequence over the
`⌊width/8⌋·⌊height/8⌋` blocks) reproduces the original buffer exactly,
byte for byte. -/
theorem claim_C2_shuffleBlock_roundtrip (seed : Nat) (img : ImageData) (bw bh : Nat)
    (hw : img.width = 8 * bw) (hh : img.height = 8 * bh)
    (hd : img.data.length = img.width * img.height * 4)
    (hbytes : ∀ b ∈ img.data, b < 256) :
    ShuffleBlockCodec.doDecrypt seed (ShuffleBlockCodec.doEncrypt seed img) = img := by
  have hw' : img.width = bw * 8 := by omega
  have hh' : img.height = bh * 8 := by omega
  obtain ⟨e1, e2, e3⟩ := ShuffleBlockCodec.doEncrypt_dims seed img
  have hbw8 : img.width / 8 = bw := by omega
  have hbh8 : img.height / 8 = bh := by omega
  have he1 : (ShuffleBlockCodec.doEncrypt seed img).width = bw * 8 := by
    rw [e1, hbw8]
  have he2 : (ShuffleBlockCodec.doEncrypt seed img).height = bh * 8 := by
    rw [e2, hbh8]
  obtain ⟨d1, d2, d3⟩ :=
    ShuffleBlockCodec.doDecrypt_dims seed (ShuffleBlockCodec.doEncrypt seed img)
  rw [he1] at d1 d3
  rw [he2] at d2 d3
  have hA : bw * 8 / 8 = bw := by omega
  have hB : bh * 8 / 8 = bh := by omega
  rw [hA] at d1 d3
  rw [hB] at d2 d3
  apply imageData_eq
  · rw [d1]; omega
  · rw [d2]; omega
  · apply List.ext_getElem
    · rw [d3, hd, hw', hh']
    · intro p h1 h2
      have hp : p < bw * 8 * (bh * 8) * 4 := by rw [d3] at h1; exact h1
      obtain ⟨k, hk, y, hy, i, hi, hpe⟩ := baddr_surj bw bh p hp
      rw [← List.getD_eq_getElem _ 0 h1, ← List.getD_eq_getElem _ 0 h2]
      rw [hpe]
      rw [shuffleBlock_decrypt_getD seed (ShuffleBlockCodec.doEncrypt seed img)
        bw bh k y i he1 he2 hk hy hi]
      rw [he1]
      have hdec : (nthDraw (bw * bh) seed k / bw * (bw * 8)
            + nthDraw (bw * bh) seed k % bw) * 8 * 4 + y * (bw * 8 * 4) + i
          = (nthDraw (bw * bh) seed k / bw * 8 + y) * (bw * 32)
            + (nthDraw (bw * bh) seed k % bw * 32 + i) := by ring
      rw [hdec]
      rw [shuffleBlock_encrypt_getD seed img bw bh k y i hw' hh' hk hy hi]
      have hbyte : img.data.getD
          ((k / bw * img.width + k % bw) * 8 * 4 + y * (img.width * 4) + i) 0 < 256 :=
        getD_lt_256 img.data hbytes _
      rw [clampByte_id _ hbyte, clampByte_id _ hbyte]
      rw [hw']
      have hS : (k / bw * (bw * 8) + k % bw) * 8 * 4 + y * (bw * 8 * 4) + i
          = (k / bw * 8 + y) * (bw * 32) + (k % bw * 32 + i) := by ring
      rw [hS]

/-- Witness for C2 at a concrete 8×8 buffer. -/
theorem claim_C2_shuffleBlock_roundtrip_witness :
    ShuffleBlockCodec.doDecrypt 3
        (ShuffleBlockCodec.doEncrypt 3 ⟨8, 8, List.replicate 256 7⟩)
      = ⟨8, 8, List.replicate 256 7⟩ :=
  claim_C2_shuffleBlock_roundtrip 3 ⟨8, 8, List.replicate 256 7⟩ 1 1
    (by decide) (by decide) (by decide) (by decide)

theorem fold3_plain (init : List Nat) (a1 a2 a3 w1 w2 w3 : Nat → Nat) (t : Nat) :
    (List.range t).foldl
        (fun d i => ((d.set (a1 i) (w1 i)).set (a2 i) (w2 i)).set (a3 i) (w3 i)) init
      = setList init (((List.range t).map (fun i =>
          [(a1 i, w1 i), (a2 i, w2 i), (a3 i, w3 i)])).flatten) := by
  induction t with
  | zero => rfl
  | succ t ih =>
    rw [List.range_succ, List.foldl_append, ih, List.map_append, List.flatten_append,
      setList_append]
    rfl

theorem fold3_writes (init : List Nat) (seq0 : RandomSequence) (v1 v2 v3 : Nat → Nat) :
    ∀ t, (List.range t).foldl
        (fun (bs : List Nat × RandomSequence) i =>
          (((bs.1.set ((bs.2.next).1) (v1 i)).set
              ((((bs.2.next).2).next).1) (v2 i)).set
              ((((((bs.2.next).2).next).2).next).1) (v3 i),
            ((((((bs.2.next).2).next).2).next).2)))
        (init, seq0)
      = (setList init (((List.range t).map (fun i =>
          [(((seq0.skip (3 * i)).next).1, v1 i),
           (((seq0.skip (3 * i + 1)).next).1, v2 i),
           (((seq0.skip (3 * i + 2)).next).1, v3 i)])).flatten),
         seq0.skip (3 * t)) := by
  intro t
  induction t with
  | zero => rfl
  | succ t ih =>
    rw [List.range_succ, List.foldl_append, ih]
    simp only [List.foldl_cons, List.foldl_nil]
    have hs1 : seq0.skip (3 * t + 1) = ((seq0.skip (3 * t)).next).2 :=
      RandomSequence.skip_succ_right seq0 (3 * t)
    have hs2 : seq0.skip (3 * t + 2) = ((seq0.skip (3 * t + 1)).next).2 :=
      RandomSequence.skip_succ_right seq0 (3 * t + 1)
    have hs3 : seq0.skip (3 * t + 3) = ((seq0.skip (3 * t + 2)).next).2 :=
      RandomSequence.skip_succ_right seq0 (3 * t + 2)
    apply Prod.ext
    · show (((setList init _).set ((seq0.skip (3 * t)).next).1 (v1 t)).set _ (v2 t)).set _ (v3 t) = _
      rw [List.map_append, List.flatten_append, setList_append]
      show _ = setList (setList init _)
        [(((seq0.skip (3 * t)).next).1, v1 t),
         (((seq0.skip (3 * t + 1)).next).1, v2 t),
         (((seq0.skip (3 * t + 2)).next).1, v3 t)]
      rw [hs2, hs1]
      rfl
    · show ((((((seq0.skip (3 * t)).next).2).next).2).next).2 = seq0.skip (3 * (t + 1))
      have h3 : 3 * (t + 1) = 3 * t + 3 := by ring
      rw [h3, hs3, hs2, hs1]

theorem fold3_read (init : List Nat) (seq0 : RandomSequence) (buffer : List Nat) :
    ∀ t, (List.range t).foldl
        (fun (ds : List Nat × RandomSequence) i =>
          (((ds.1.set (4 * i) (clampByte (buffer.getD ((ds.2.next).1) 0))).set
              (4 * i + 1) (clampByte (buffer.getD ((((ds.2.next).2).next).1) 0))).set
              (4 * i + 2) (clampByte (buffer.getD ((((((ds.2.next).2).next).2).next).1) 0)),
            ((((((ds.2.next).2).next).2).next).2)))
        (init, seq0)
      = (setList init (((List.range t).map (fun i =>
          [(4 * i, clampByte (buffer.getD (((seq0.skip (3 * i)).next).1) 0)),
           (4 * i + 1, clampByte (buffer.getD (((seq0.skip (3 * i + 1)).next).1) 0)),
           (4 * i + 2, clampByte (buffer.getD (((seq0.skip (3 * i + 2)).next).1) 0))])).flatten),
         seq0.skip (3 * t)) := by
  intro t
  induction t with
  | zero => rfl
  | succ t ih =>
    rw [List.range_succ, List.foldl_append, ih]
    simp only [List.foldl_cons, List.foldl_nil]
    have hs1 : seq0.skip (3 * t + 1) = ((seq0.skip (3 * t)).next).2 :=
      RandomSequence.skip_succ_right seq0 (3 * t)
    have hs2 : seq0.skip (3 * t + 2) = ((seq0.skip (3 * t + 1)).next).2 :=
      RandomSequence.skip_succ_right seq0 (3 * t + 1)
    have hs3 : seq0.skip (3 * t + 3) = ((seq0.skip (3 * t + 2)).next).2 :=
      RandomSequence.skip_succ_right seq0 (3 * t + 2)
    rw [Prod.mk.injEq]
    constructor
    · rw [List.map_append, List.flatten_append, setList_append]
      show _ = setList (setList init _)
        [(4 * t, clampByte (buffer.getD (((seq0.skip (3 * t)).next).1) 0)),
         (4 * t + 1, clampByte (buffer.getD (((seq0.skip (3 * t + 1)).next).1) 0)),
         (4 * t + 2, clampByte (buffer.getD (((seq0.skip (3 * t + 2)).next).1) 0))]
      rw [hs2, hs1]
      rfl
    · have h3 : 3 * (t + 1) = 3 * t + 3 := by ring
      rw [h3, hs3, hs2, hs1]

theorem ShuffleRgbCodec.rgbEncrypt_eq (seed : Nat) (img : ImageData) :
    ShuffleRgbCodec.doEncrypt seed img
      = ImageData.mk img.width img.height
          (setList img.data
            (((List.range ((img.data.length + 3) / 4)).map (fun i =>
              [(4 * i, clampByte ((rgbBuffer seed img).getD (3 * i) 0)),
               (4 * i + 1, clampByte ((rgbBuffer seed img).getD (3 * i + 1) 0)),
               (4 * i + 2, clampByte ((rgbBuffer seed img).getD (3 * i + 2) 0))])).flatten)) := by
  have hbuf : ((List.range ((img.data.length + 3) / 4)).foldl
      (fun (bs : List Nat × RandomSequence) i =>
        (((bs.1.set ((bs.2.next).1) (clampByte (img.data.getD (4 * i) 0))).set
            ((((bs.2.next).2).next).1) (clampByte (img.data.getD (4 * i + 1) 0))).set
            ((((((bs.2.next).2).next).2).next).1) (clampByte (img.data.getD (4 * i + 2) 0)),
          ((((((bs.2.next).2).next).2).next).2)))
      (List.replicate (img.data.length / 4 * 3) 0,
        RandomSequence.new (img.data.length / 4 * 3) seed)).1
      = rgbBuffer seed img := by
    rw [fold3_writes]
    rfl
  simp only [ShuffleRgbCodec.doEncrypt]
  rw [hbuf]
  rw [fold3_plain img.data (fun i => 4 * i) (fun i => 4 * i + 1) (fun i => 4 * i + 2)
    (fun i => clampByte ((rgbBuffer seed img).getD (3 * i) 0))
    (fun i => clampByte ((rgbBuffer seed img).getD (3 * i + 1) 0))
    (fun i => clampByte ((rgbBuffer seed img).getD (3 * i + 2) 0))
    ((img.data.length + 3) / 4)]

theorem ShuffleRgbCodec.rgbDecrypt_eq (seed : Nat) (img2 : ImageData) :
    ShuffleRgbCodec.doDecrypt seed img2
      = ImageData.mk img2.width img2.height
          (setList img2.data
            (((List.range ((img2.data.length + 3) / 4)).map (fun i =>
              [(4 * i, clampByte ((rgbGatherBuffer img2).getD
                  (nthDraw (img2.data.length / 4 * 3) seed (3 * i)) 0)),
               (4 * i + 1, clampByte ((rgbGatherBuffer img2).getD
                  (nthDraw (img2.data.length / 4 * 3) seed (3 * i + 1)) 0)),
               (4 * i + 2, clampByte ((rgbGatherBuffer img2).getD
                  (nthDraw (img2.data.length / 4 * 3) seed (3 * i + 2)) 0))])).flatten)) := by
  have hgather : (List.range ((img2.data.length + 3) / 4)).foldl
      (fun b i => ((b.set (3 * i) (clampByte (img2.data.getD (4 * i) 0))).set
        (3 * i + 1) (clampByte (img2.data.getD (4 * i + 1) 0))).set
        (3 * i + 2) (clampByte (img2.data.getD (4 * i + 2) 0)))
      (List.replicate (img2.data.length / 4 * 3) 0) = rgbGatherBuffer img2 := by
    rw [fold3_plain]
    rfl
  simp only [ShuffleRgbCodec.doDecrypt]
  rw [hgather]
  rw [fold3_read img2.data (RandomSequence.new (img2.data.length / 4 * 3) seed)
    (rgbGatherBuffer img2) ((img2.data.length + 3) / 4)]
  rfl

theorem rgbBuffer_getD (seed : Nat) (img : ImageData) (npix i c : Nat)
    (hlen : img.data.length = 4 * npix) (hi : i < npix) (hc : c < 3) :
    (rgbBuffer seed img).getD (nthDraw (npix * 3) seed (3 * i + c)) 0
      = clampByte (img.data.getD (4 * i + c) 0) := by
  have hn : img.data.length / 4 * 3 = npix * 3 := by omega
  have hiter : (img.data.length + 3) / 4 = npix := by omega
  have hjn : 3 * i + c < npix * 3 := by omega
  unfold rgbBuffer
  rw [hn, hiter]
  apply getD_setList_eq
  · rw [List.length_replicate]
    exact nthDraw_lt _ seed _ hjn
  · rw [List.mem_map]
    refine ⟨(nthDraw (npix * 3) seed (3 * i + c), clampByte (img.data.getD (4 * i + c) 0)),
      List.mem_flatten.mpr ⟨_, List.mem_map.mpr ⟨i, List.mem_range.mpr hi, rfl⟩, ?_⟩, rfl⟩
    rcases (by omega : c = 0 ∨ c = 1 ∨ c = 2) with h0 | h0 | h0 <;> subst h0 <;> simp
  · intro w hw hwp
    rw [List.mem_flatten] at hw
    obtain ⟨chunk, hchunk, hwc⟩ := hw
    rw [List.mem_map] at hchunk
    obtain ⟨i2, hi2, rfl⟩ := hchunk
    rw [List.mem_range] at hi2
    simp only [List.mem_cons, List.not_mem_nil, or_false] at hwc
    rcases hwc with rfl | rfl | rfl
    · have hwp2 : nthDraw (npix * 3) seed (3 * i2) = nthDraw (npix * 3) seed (3 * i + c) := hwp
      have he := nthDraw_inj (npix * 3) seed (3 * i2) (3 * i + c) (by omega) hjn hwp2
      have hic : i2 = i ∧ c = 0 := by omega
      obtain ⟨rfl, rfl⟩ := hic
      simp
    · have hwp2 : nthDraw (npix * 3) seed (3 * i2 + 1) = nthDraw (npix * 3) seed (3 * i + c) := hwp
      have he := nthDraw_inj (npix * 3) seed (3 * i2 + 1) (3 * i + c) (by omega) hjn hwp2
      have hic : i2 = i ∧ c = 1 := by omega
      obtain ⟨rfl, rfl⟩ := hic
      simp
    · have hwp2 : nthDraw (npix * 3) seed (3 * i2 + 2) = nthDraw (npix * 3) seed (3 * i + c) := hwp
      have he := nthDraw_inj (npix * 3) seed (3 * i2 + 2) (3 * i + c) (by omega) hjn hwp2
      have hic : i2 = i ∧ c = 2 := by omega
      obtain ⟨rfl, rfl⟩ := hic
      simp

theorem rgbGatherBuffer_getD (img2 : ImageData) (npix i c : Nat)
    (hlen : img2.data.length = 4 * npix) (hi : i < npix) (hc : c < 3) :
    (rgbGatherBuffer img2).getD (3 * i + c) 0
      = clampByte (img2.data.getD (4 * i + c) 0) := by
  have hn : img2.data.length / 4 * 3 = npix * 3 := by omega
  have hiter : (img2.data.length + 3) / 4 = npix := by omega
  unfold rgbGatherBuffer
  rw [hn, hiter]
  apply getD_setList_eq
  · rw [List.length_replicate]
    omega
  · rw [List.mem_map]
    refine ⟨(3 * i + c, clampByte (img2.data.getD (4 * i + c) 0)),
      List.mem_flatten.mpr ⟨_, List.mem_map.mpr ⟨i, List.mem_range.mpr hi, rfl⟩, ?_⟩, rfl⟩
    rcases (by omega : c = 0 ∨ c = 1 ∨ c = 2) with h0 | h0 | h0 <;> subst h0 <;> simp
  · intro w hw hwp
    rw [List.mem_flatten] at hw
    obtain ⟨chunk, hchunk, hwc⟩ := hw
    rw [List.mem_map] at hchunk
    obtain ⟨i2, hi2, rfl⟩ := hchunk
    rw [List.mem_range] at hi2
    simp only [List.mem_cons, List.not_mem_nil, or_false] at hwc
    rcases hwc with rfl | rfl | rfl
    · have hwp2 : 3 * i2 = 3 * i + c := hwp
      have hic : i2 = i ∧ c = 0 := by omega
      obtain ⟨rfl, rfl⟩ := hic
      simp
    · have hwp2 : 3 * i2 + 1 = 3 * i + c := hwp
      have hic : i2 = i ∧ c = 1 := by omega
      obtain ⟨rfl, rfl⟩ := hic
      simp
    · have hwp2 : 3 * i2 + 2 = 3 * i + c := hwp
      have hic : i2 = i ∧ c = 2 := by omega
      obtain ⟨rfl, rfl⟩ := hic
      simp

theorem shuffleRgb_encrypt_getD (seed : Nat) (img : ImageData) (npix : Nat)
    (hlen : img.data.length = 4 * npix) :
    (∀ i c, i < npix → c < 3 →
      (ShuffleRgbCodec.doEncrypt seed img).data.getD (4 * i + c) 0
        = clampByte ((rgbBuffer seed img).getD (3 * i + c) 0)) ∧
    (∀ p, p % 4 = 3 →
      (ShuffleRgbCodec.doEncrypt seed img).data.getD p 0 = img.data.getD p 0) := by
  have hiter : (img.data.length + 3) / 4 = npix := by omega
  rw [ShuffleRgbCodec.rgbEncrypt_eq, hiter]
  constructor
  · intro i c hi hc
    show (setList img.data _).getD (4 * i + c) 0 = _
    apply getD_setList_eq
    · omega
    · rw [List.mem_map]
      refine ⟨(4 * i + c, clampByte ((rgbBuffer seed img).getD (3 * i + c) 0)),
        List.mem_flatten.mpr ⟨_, List.mem_map.mpr ⟨i, List.mem_range.mpr hi, rfl⟩, ?_⟩, rfl⟩
      rcases (by omega : c = 0 ∨ c = 1 ∨ c = 2) with h0 | h0 | h0 <;> subst h0 <;> simp
    · intro w hw hwp
      rw [List.mem_flatten] at hw
      obtain ⟨chunk, hchunk, hwc⟩ := hw
      rw [List.mem_map] at hchunk
      obtain ⟨i2, hi2, rfl⟩ := hchunk
      simp only [List.mem_cons, List.not_mem_nil, or_false] at hwc
      rcases hwc with rfl | rfl | rfl
      · have hwp2 : 4 * i2 = 4 * i + c := hwp
        have hic : i2 = i ∧ c = 0 := by omega
        obtain ⟨rfl, rfl⟩ := hic
        simp
      · have hwp2 : 4 * i2 + 1 = 4 * i + c := hwp
        have hic : i2 = i ∧ c = 1 := by omega
        obtain ⟨rfl, rfl⟩ := hic
        simp
      · have hwp2 : 4 * i2 + 2 = 4 * i + c := hwp
        have hic : i2 = i ∧ c = 2 := by omega
        obtain ⟨rfl, rfl⟩ := hic
        simp
  · intro p hp4
    show (setList img.data _).getD p 0 = _
    apply getD_setList_not_mem
    intro hmem
    rw [List.mem_map] at hmem
    obtain ⟨w, hw, hwp⟩ := hmem
    rw [List.mem_flatten] at hw
    obtain ⟨chunk, hchunk, hwc⟩ := hw
    rw [List.mem_map] at hchunk
    obtain ⟨i2, hi2, rfl⟩ := hchunk
    simp only [List.mem_cons, List.not_mem_nil, or_false] at hwc
    rcases hwc with rfl | rfl | rfl
    · have h1 : 4 * i2 = p := hwp
      omega
    · have h1 : 4 * i2 + 1 = p := hwp
      omega
    · have h1 : 4 * i2 + 2 = p := hwp
      omega

theorem shuffleRgb_decrypt_getD (seed : Nat) (img2 : ImageData) (npix : Nat)
    (hlen : img2.data.length = 4 * npix) :
    (∀ i c, i < npix → c < 3 →
      (ShuffleRgbCodec.doDecrypt seed img2).data.getD (4 * i + c) 0
        = clampByte ((rgbGatherBuffer img2).getD
            (nthDraw (npix * 3) seed (3 * i + c)) 0)) ∧
    (∀ p, p % 4 = 3 →
      (ShuffleRgbCodec.doDecrypt seed img2).data.getD p 0 = img2.data.getD p 0) := by
  have hiter : (img2.data.length + 3) / 4 = npix := by omega
  have hn : img2.data.length / 4 * 3 = npix * 3 := by omega
  rw [ShuffleRgbCodec.rgbDecrypt_eq, hiter, hn]
  constructor
  · intro i c hi hc
    show (setList img2.data _).getD (4 * i + c) 0 = _
    apply getD_setList_eq
    · omega
    · rw [List.mem_map]
      refine ⟨(4 * i + c, clampByte ((rgbGatherBuffer img2).getD
          (nthDraw (npix * 3) seed (3 * i + c)) 0)),
        List.mem_flatten.mpr ⟨_, List.mem_map.mpr ⟨i, List.mem_range.mpr hi, rfl⟩, ?_⟩, rfl⟩
      rcases (by omega : c = 0 ∨ c = 1 ∨ c = 2) with h0 | h0 | h0 <;> subst h0 <;> simp
    · intro w hw hwp
      rw [List.mem_flatten] at hw
      obtain ⟨chunk, hchunk, hwc⟩ := hw
      rw [List.mem_map] at hchunk
      obtain ⟨i2, hi2, rfl⟩ := hchunk
      simp only [List.mem_cons, List.not_mem_nil, or_false] at hwc
      rcases hwc with rfl | rfl | rfl
      · have hwp2 : 4 * i2 = 4 * i + c := hwp
        have hic : i2 = i ∧ c = 0 := by omega
        obtain ⟨rfl, rfl⟩ := hic
        simp
      · have hwp2 : 4 * i2 + 1 = 4 * i + c := hwp
        have hic : i2 = i ∧ c = 1 := by omega
        obtain ⟨rfl, rfl⟩ := hic
        simp
      · have hwp2 : 4 * i2 + 2 = 4 * i + c := hwp
        have hic : i2 = i ∧ c = 2 := by omega
        obtain ⟨rfl, rfl⟩ := hic
        simp
  · intro p hp4
    show (setList img2.data _).getD p 0 = _
    apply getD_setList_not_mem
    intro hmem
    rw [List.mem_map] at hmem
    obtain ⟨w, hw, hwp⟩ := hmem
    rw [List.mem_flatten] at hw
    obtain ⟨chunk, hchunk, hwc⟩ := hw
    rw [List.mem_map] at hchunk
    obtain ⟨i2, hi2, rfl⟩ := hchunk
    simp only [List.mem_cons, List.not_mem_nil, or_false] at hwc
    rcases hwc with rfl | rfl | rfl
    · have h1 : 4 * i2 = p := hwp
      omega
    · have h1 : 4 * i2 + 1 = p := hwp
      omega
    · have h1 : 4 * i2 + 2 = p := hwp
      omega

/-- C3: for every RGBA buffer with alpha 255 everywhere,
`ShuffleRgbCodec` decode applied to the result of encode with the same
seed reproduces the R, G and B values of every pixel exactly, and
neither encode nor decode changes any alpha byte. -/
theorem claim_C3_shuffleRgb_roundtrip (seed : Nat) (img : ImageData) (npix : Nat)
    (hlen : img.data.length = 4 * npix)
    (hbytes : ∀ b ∈ img.data, b < 256)
    (halpha : ∀ p, p < img.data.length → p % 4 = 3 → img.data.getD p 0 = 255) :
    ShuffleRgbCodec.doDecrypt seed (ShuffleRgbCodec.doEncrypt seed img) = img ∧
    (∀ p, p % 4 = 3 →
      (ShuffleRgbCodec.doEncrypt seed img).data.getD p 0 = img.data.getD p 0) ∧
    (∀ p, p % 4 = 3 →
      (ShuffleRgbCodec.doDecrypt seed (ShuffleRgbCodec.doEncrypt seed img)).data.getD p 0
        = (ShuffleRgbCodec.doEncrypt seed img).data.getD p 0) := by
  have henc_len : (ShuffleRgbCodec.doEncrypt seed img).data.length = 4 * npix := by
    rw [ShuffleRgbCodec.rgbEncrypt_eq]
    show (setList img.data _).length = _
    rw [length_setList, hlen]
  obtain ⟨hencP, hencA⟩ := shuffleRgb_encrypt_getD seed img npix hlen
  obtain ⟨hdecP, hdecA⟩ :=
    shuffleRgb_decrypt_getD seed (ShuffleRgbCodec.doEncrypt seed img) npix henc_len
  refine ⟨?_, hencA, hdecA⟩
  apply imageData_eq
  · rw [ShuffleRgbCodec.rgbDecrypt_eq, ShuffleRgbCodec.rgbEncrypt_eq]
  · rw [ShuffleRgbCodec.rgbDecrypt_eq, ShuffleRgbCodec.rgbEncrypt_eq]
  · have hdec_len : (ShuffleRgbCodec.doDecrypt seed
        (ShuffleRgbCodec.doEncrypt seed img)).data.length = 4 * npix := by
      rw [ShuffleRgbCodec.rgbDecrypt_eq]
      show (setList _ _).length = _
      rw [length_setList, henc_len]
    apply List.ext_getElem
    · rw [hdec_len, hlen]
    · intro p h1 h2
      rw [← List.getD_eq_getElem _ 0 h1, ← List.getD_eq_getElem _ 0 h2]
      have hp : p < 4 * npix := by rw [hdec_len] at h1; exact h1
      rcases (by omega : p % 4 = 3 ∨ p % 4 < 3) with hp4 | hp4
      · rw [hdecA p hp4, hencA p hp4]
      · have hpi : p = 4 * (p / 4) + p % 4 := by omega
        have hplt : p / 4 < npix := by omega
        rw [hpi]
        rw [hdecP (p / 4) (p % 4) hplt hp4]
        have hjlt : nthDraw (npix * 3) seed (3 * (p / 4) + p % 4) < npix * 3 :=
          nthDraw_lt _ seed _ (by omega)
        have hj : 3 * (nthDraw (npix * 3) seed (3 * (p / 4) + p % 4) / 3)
            + nthDraw (npix * 3) seed (3 * (p / 4) + p % 4) % 3
            = nthDraw (npix * 3) seed (3 * (p / 4) + p % 4) := by omega
        rw [← hj]
        rw [rgbGatherBuffer_getD (ShuffleRgbCodec.doEncrypt seed img) npix _ _
          henc_len (by omega) (by omega)]
        rw [hencP _ _ (by omega) (by omega)]
        rw [hj]
        rw [rgbBuffer_getD seed img npix (p / 4) (p % 4) hlen hplt hp4]
        have hb : img.data.getD (4 * (p / 4) + p % 4) 0 < 256 := getD_lt_256 _ hbytes _
        rw [clampByte_id _ hb, clampByte_id _ hb, clampByte_id _ hb, clampByte_id _ hb]

/-- Witness for C3 at a one-pixel opaque buffer. -/
theorem claim_C3_shuffleRgb_roundtrip_witness :
    ShuffleRgbCodec.doDecrypt 5 (ShuffleRgbCodec.doEncrypt 5 ⟨1, 1, [10, 20, 30, 255]⟩)
        = ⟨1, 1, [10, 20, 30, 255]⟩ ∧
    (ShuffleRgbCodec.doEncrypt 5 ⟨1, 1, [10, 20, 30, 255]⟩).data.getD 3 0
        = ([10, 20, 30, 255] : List Nat).getD 3 0 := by
  have h := claim_C3_shuffleRgb_roundtrip 5 ⟨1, 1, [10, 20, 30, 255]⟩ 1
    (by decide) (by decide) (by decide)
  exact ⟨h.1, h.2.1 3 (by decide)⟩

theorem mosaicChannel_eq_setList (w x y bw bh : Nat) (d : List Nat) (c : Nat) :
    mosaicChannel w x y bw bh d c
      = setList d (((List.range bh).map (fun y2 =>
          (List.range bw).map (fun x2 =>
            ((y * w + x) * 4 + c + y2 * (w * 4) + x2 * 4,
             clampByte (jsRound (chanSum d w x y bw bh c) bw bh))))).flatten) := by
  unfold mosaicChannel
  rw [setList_flatten, List.foldl_map]
  apply foldl_congr_mem
  intro b y2 hy2
  rw [setList_map]

theorem mosaicChannel_length (w x y bw bh : Nat) (d : List Nat) (c : Nat) :
    (mosaicChannel w x y bw bh d c).length = d.length := by
  rw [mosaicChannel_eq_setList, length_setList]

theorem mem_chanWrites (w x y bw bh c v : Nat) (w2 : Nat × Nat) :
    w2 ∈ (((List.range bh).map (fun y2 =>
      (List.range bw).map (fun x2 =>
        ((y * w + x) * 4 + c + y2 * (w * 4) + x2 * 4, v)))).flatten) ↔
    ∃ y2, y2 < bh ∧ ∃ x2, x2 < bw ∧
      w2 = ((y * w + x) * 4 + c + y2 * (w * 4) + x2 * 4, v) := by
  rw [List.mem_flatten]
  constructor
  · rintro ⟨chunk, hchunk, hwc⟩
    rw [List.mem_map] at hchunk
    obtain ⟨y2, hy2, rfl⟩ := hchunk
    rw [List.mem_range] at hy2
    rw [List.mem_map] at hwc
    obtain ⟨x2, hx2, rfl⟩ := hwc
    rw [List.mem_range] at hx2
    exact ⟨y2, hy2, x2, hx2, rfl⟩
  · rintro ⟨y2, hy2, x2, hx2, rfl⟩
    refine ⟨_, List.mem_map.mpr ⟨y2, List.mem_range.mpr hy2, rfl⟩, ?_⟩
    exact List.mem_map.mpr ⟨x2, List.mem_range.mpr hx2, rfl⟩

theorem mosaicChannel_getD_in (w x y bw bh : Nat) (d : List Nat) (c X Y : Nat)
    (hX1 : x ≤ X) (hX2 : X < x + bw) (hY1 : y ≤ Y) (hY2 : Y < y + bh)
    (hplen : (Y * w + X) * 4 + c < d.length) :
    (mosaicChannel w x y bw bh d c).getD ((Y * w + X) * 4 + c) 0
      = clampByte (jsRound (chanSum d w x y bw bh c) bw bh) := by
  rw [mosaicChannel_eq_setList]
  apply getD_setList_eq
  · exact hplen
  · rw [List.mem_map]
    refine ⟨((y * w + x) * 4 + c + (Y - y) * (w * 4) + (X - x) * 4,
      clampByte (jsRound (chanSum d w x y bw bh c) bw bh)), ?_, ?_⟩
    · rw [mem_chanWrites]
      exact ⟨Y - y, by omega, X - x, by omega, rfl⟩
    · show (y * w + x) * 4 + c + (Y - y) * (w * 4) + (X - x) * 4 = (Y * w + X) * 4 + c
      zify [hY1, hX1]
      ring
  · intro w2 hw2 hwp
    rw [mem_chanWrites] at hw2
    obtain ⟨y2, hy2, x2, hx2, rfl⟩ := hw2
    rfl

theorem mosaicChannel_getD_out (w x y bw bh : Nat) (d : List Nat) (c c2 X Y : Nat)
    (hxw : x + bw ≤ w) (hc : c < 4) (hc2 : c2 < 4) (hX : X < w)
    (hout : ¬(x ≤ X ∧ X < x + bw ∧ y ≤ Y ∧ Y < y + bh ∧ c2 = c)) :
    (mosaicChannel w x y bw bh d c).getD ((Y * w + X) * 4 + c2) 0
      = d.getD ((Y * w + X) * 4 + c2) 0 := by
  rw [mosaicChannel_eq_setList]
  apply getD_setList_not_mem
  intro hmem
  rw [List.mem_map] at hmem
  obtain ⟨w2, hw2, hwp⟩ := hmem
  rw [mem_chanWrites] at hw2
  obtain ⟨y2, hy2, x2, hx2, rfl⟩ := hw2
  have hwp1 : (y * w + x) * 4 + c + y2 * (w * 4) + x2 * 4 = (Y * w + X) * 4 + c2 := hwp
  have haddr : (y * w + x) * 4 + c + y2 * (w * 4) + x2 * 4
      = ((y + y2) * w + (x + x2)) * 4 + c := by ring
  have hwp2 : ((y + y2) * w + (x + x2)) * 4 + c = (Y * w + X) * 4 + c2 := by
    rw [← haddr]
    exact hwp1
  obtain ⟨hrow, hcoleq⟩ :=
    rowcol_inj 4 ((y + y2) * w + (x + x2)) c (Y * w + X) c2 hc hc2 hwp2
  obtain ⟨hYe, hXe⟩ := rowcol_inj w (y + y2) (x + x2) Y X (by omega) hX hrow
  exact hout ⟨by omega, by omega, by omega, by omega, hcoleq.symm⟩

theorem chanSum_congr (d1 d2 : List Nat) (w x y bw bh c : Nat)
    (h : ∀ y2 x2, y2 < bh → x2 < bw →
      d2.getD ((y * w + x) * 4 + c + y2 * (w * 4) + x2 * 4) 0
        = d1.getD ((y * w + x) * 4 + c + y2 * (w * 4) + x2 * 4) 0) :
    chanSum d2 w x y bw bh c = chanSum d1 w x y bw bh c := by
  unfold chanSum
  congr 1
  apply List.map_congr_left
  intro y2 hy2
  rw [List.mem_range] at hy2
  congr 1
  apply List.map_congr_left
  intro x2 hx2
  rw [List.mem_range] at hx2
  exact h y2 x2 hy2 hx2

theorem MosaicCodec.mosaic_data (img : ImageData) (x y width height : Nat) :
    (MosaicCodec.mosaic img x y width height).data
      = (List.range 4).foldl
          (fun d c => mosaicChannel img.width x y width height d c) img.data := by
  simp only [MosaicCodec.mosaic, mosaicChannel, chanSum]

theorem MosaicCodec.mosaic_width (img : ImageData) (x y width height : Nat) :
    (MosaicCodec.mosaic img x y width height).width = img.width := by
  simp only [MosaicCodec.mosaic]

theorem MosaicCodec.mosaic_height (img : ImageData) (x y width height : Nat) :
    (MosaicCodec.mosaic img x y width height).height = img.height := by
  simp only [MosaicCodec.mosaic]

theorem MosaicCodec.mosaic_length (img : ImageData) (x y width height : Nat) :
    (MosaicCodec.mosaic img x y width height).data.length = img.data.length := by
  rw [MosaicCodec.mosaic_data]
  apply foldl_preserves (fun d : List Nat => d.length = img.data.length)
  · intro d c hd
    rw [mosaicChannel_length]
    exact hd
  · rfl

theorem mosaicChannel_read_out (w x y bw bh : Nat) (d : List Nat) (cw cr : Nat)
    (hxw : x + bw ≤ w) (hcw : cw < 4) (hcr : cr < 4) (hne : cr ≠ cw)
    (y2 x2 : Nat) (hy2 : y2 < bh) (hx2 : x2 < bw) :
    (mosaicChannel w x y bw bh d cw).getD
        ((y * w + x) * 4 + cr + y2 * (w * 4) + x2 * 4) 0
      = d.getD ((y * w + x) * 4 + cr + y2 * (w * 4) + x2 * 4) 0 := by
  have haddr : (y * w + x) * 4 + cr + y2 * (w * 4) + x2 * 4
      = ((y + y2) * w + (x + x2)) * 4 + cr := by ring
  rw [haddr]
  exact mosaicChannel_getD_out w x y bw bh d cw cr (x + x2) (y + y2)
    hxw hcw hcr (by omega) (by omega)

theorem MosaicCodec.mosaic_getD_in (img : ImageData) (x y bw bh : Nat)
    (hxw : x + bw ≤ img.width) (X Y c : Nat) (hc : c < 4)
    (hX1 : x ≤ X) (hX2 : X < x + bw) (hY1 : y ≤ Y) (hY2 : Y < y + bh)
    (hplen : (Y * img.width + X) * 4 + c < img.data.length) :
    (MosaicCodec.mosaic img x y bw bh).data.getD ((Y * img.width + X) * 4 + c) 0
      = clampByte (jsRound (blockSum img x y bw bh c) bw bh) := by
  have hX : X < img.width := by omega
  have hrange4 : List.range 4 = [0, 1, 2, 3] := rfl
  rw [MosaicCodec.mosaic_data, hrange4]
  simp only [List.foldl_cons, List.foldl_nil]
  have hl0 : (mosaicChannel img.width x y bw bh img.data 0).length
      = img.data.length := mosaicChannel_length _ _ _ _ _ _ _
  have hl1 : (mosaicChannel img.width x y bw bh
      (mosaicChannel img.width x y bw bh img.data 0) 1).length = img.data.length := by
    rw [mosaicChannel_length]
    exact hl0
  have hl2 : (mosaicChannel img.width x y bw bh (mosaicChannel img.width x y bw bh
      (mosaicChannel img.width x y bw bh img.data 0) 1) 2).length = img.data.length := by
    rw [mosaicChannel_length]
    exact hl1
  rcases (by omega : c = 0 ∨ c = 1 ∨ c = 2 ∨ c = 3) with rfl | rfl | rfl | rfl
  · rw [mosaicChannel_getD_out img.width x y bw bh _ 3 0 X Y hxw (by omega) (by omega)
      hX (by omega)]
    rw [mosaicChannel_getD_out img.width x y bw bh _ 2 0 X Y hxw (by omega) (by omega)
      hX (by omega)]
    rw [mosaicChannel_getD_out img.width x y bw bh _ 1 0 X Y hxw (by omega) (by omega)
      hX (by omega)]
    rw [mosaicChannel_getD_in img.width x y bw bh img.data 0 X Y hX1 hX2 hY1 hY2 hplen]
    rfl
  · rw [mosaicChannel_getD_out img.width x y bw bh _ 3 1 X Y hxw (by omega) (by omega)
      hX (by omega)]
    rw [mosaicChannel_getD_out img.width x y bw bh _ 2 1 X Y hxw (by omega) (by omega)
      hX (by omega)]
    rw [mosaicChannel_getD_in img.width x y bw bh _ 1 X Y hX1 hX2 hY1 hY2
      (by rw [hl0]; exact hplen)]
    rw [chanSum_congr img.data (mosaicChannel img.width x y bw bh img.data 0)
      img.width x y bw bh 1
      (fun y2 x2 hy2 hx2 => mosaicChannel_read_out img.width x y bw bh img.data 0 1
        hxw (by omega) (by omega) (by omega) y2 x2 hy2 hx2)]
    rfl
  · rw [mosaicChannel_getD_out img.width x y bw bh _ 3 2 X Y hxw (by omega) (by omega)
      hX (by omega)]
    rw [mosaicChannel_getD_in img.width x y bw bh _ 2 X Y hX1 hX2 hY1 hY2
      (by rw [hl1]; exact hplen)]
    rw [chanSum_congr img.data (mosaicChannel img.width x y bw bh
        (mosaicChannel img.width x y bw bh img.data 0) 1) img.width x y bw bh 2
      (fun y2 x2 hy2 hx2 =>
        (mosaicChannel_read_out img.width x y bw bh
          (mosaicChannel img.width x y bw bh img.data 0) 1 2
          hxw (by omega) (by omega) (by omega) y2 x2 hy2 hx2).trans
        (mosaicChannel_read_out img.width x y bw bh img.data 0 2
          hxw (by omega) (by omega) (by omega) y2 x2 hy2 hx2))]
    rfl
  · rw [mosaicChannel_getD_in img.width x y bw bh _ 3 X Y hX1 hX2 hY1 hY2
      (by rw [hl2]; exact hplen)]
    rw [chanSum_congr img.data (mosaicChannel img.width x y bw bh
        (mosaicChannel img.width x y bw bh
          (mosaicChannel img.width x y bw bh img.data 0) 1) 2) img.width x y bw bh 3
      (fun y2 x2 hy2 hx2 =>
        ((mosaicChannel_read_out img.width x y bw bh
          (mosaicChannel img.width x y bw bh
            (mosaicChannel img.width x y bw bh img.data 0) 1) 2 3
          hxw (by omega) (by omega) (by omega) y2 x2 hy2 hx2).trans
        ((mosaicChannel_read_out img.width x y bw bh
          (mosaicChannel img.width x y bw bh img.data 0) 1 3
          hxw (by omega) (by omega) (by omega) y2 x2 hy2 hx2).trans
        (mosaicChannel_read_out img.width x y bw bh img.data 0 3
          hxw (by omega) (by omega) (by omega) y2 x2 hy2 hx2))))]
    rfl

theorem MosaicCodec.mosaic_getD_out (img : ImageData) (x y bw bh : Nat)
    (hxw : x + bw ≤ img.width) (X Y c : Nat) (hc : c < 4) (hX : X < img.width)
    (hout : ¬(x ≤ X ∧ X < x + bw ∧ y ≤ Y ∧ Y < y + bh)) :
    (MosaicCodec.mosaic img x y bw bh).data.getD ((Y * img.width + X) * 4 + c) 0
      = img.data.getD ((Y * img.width + X) * 4 + c) 0 := by
  have hrange4 : List.range 4 = [0, 1, 2, 3] := rfl
  rw [MosaicCodec.mosaic_data, hrange4]
  simp only [List.foldl_cons, List.foldl_nil]
  rw [mosaicChannel_getD_out img.width x y bw bh _ 3 c X Y hxw (by omega) hc hX
    (fun h => hout ⟨h.1, h.2.1, h.2.2.1, h.2.2.2.1⟩)]
  rw [mosaicChannel_getD_out img.width x y bw bh _ 2 c X Y hxw (by omega) hc hX
    (fun h => hout ⟨h.1, h.2.1, h.2.2.1, h.2.2.2.1⟩)]
  rw [mosaicChannel_getD_out img.width x y bw bh _ 1 c X Y hxw (by omega) hc hX
    (fun h => hout ⟨h.1, h.2.1, h.2.2.1, h.2.2.2.1⟩)]
  rw [mosaicChannel_getD_out img.width x y bw bh _ 0 c X Y hxw (by omega) hc hX
    (fun h => hout ⟨h.1, h.2.1, h.2.2.1, h.2.2.2.1⟩)]

theorem MosaicCodec.doEncrypt_eq_flat (img : ImageData) :
    MosaicCodec.doEncrypt img
      = (List.range ((img.height + 31) / 32 * ((img.width + 31) / 32))).foldl
          (fun im k =>
            MosaicCodec.mosaic im (32 * (k % ((img.width + 31) / 32)))
              (32 * (k / ((img.width + 31) / 32)))
              (min 32 (img.width - 32 * (k % ((img.width + 31) / 32))))
              (min 32 (img.height - 32 * (k / ((img.width + 31) / 32)))))
          img := by
  unfold MosaicCodec.doEncrypt
  exact foldl_range_mul
    (fun im blockCol blockRow =>
      MosaicCodec.mosaic im (32 * blockCol) (32 * blockRow)
        (min 32 (img.width - 32 * blockCol)) (min 32 (img.height - 32 * blockRow)))
    ((img.height + 31) / 32) ((img.width + 31) / 32) img

theorem mosaic_fold_invariant (img : ImageData) (nbx nby : Nat)
    (hnbx : nbx = (img.width + 31) / 32) (hnby : nby = (img.height + 31) / 32)
    (hlen : img.data.length = img.width * img.height * 4) :
    ∀ t, t ≤ nby * nbx →
      (((List.range t).foldl
        (fun im k =>
          MosaicCodec.mosaic im (32 * (k % nbx)) (32 * (k / nbx))
            (min 32 (img.width - 32 * (k % nbx)))
            (min 32 (img.height - 32 * (k / nbx)))) img).width = img.width ∧
       ((List.range t).foldl
        (fun im k =>
          MosaicCodec.mosaic im (32 * (k % nbx)) (32 * (k / nbx))
            (min 32 (img.width - 32 * (k % nbx)))
            (min 32 (img.height - 32 * (k / nbx)))) img).height = img.height ∧
       ((List.range t).foldl
        (fun im k =>
          MosaicCodec.mosaic im (32 * (k % nbx)) (32 * (k / nbx))
            (min 32 (img.width - 32 * (k % nbx)))
            (min 32 (img.height - 32 * (k / nbx)))) img).data.length
          = img.data.length ∧
       ∀ X Y c, X < img.width → Y < img.height → c < 4 →
        (((List.range t).foldl
          (fun im k =>
            MosaicCodec.mosaic im (32 * (k % nbx)) (32 * (k / nbx))
              (min 32 (img.width - 32 * (k % nbx)))
              (min 32 (img.height - 32 * (k / nbx)))) img).data.getD
            ((Y * img.width + X) * 4 + c) 0)
          = if Y / 32 * nbx + X / 32 < t
            then clampByte (jsRound (blockSum img (32 * (X / 32)) (32 * (Y / 32))
              (min 32 (img.width - 32 * (X / 32)))
              (min 32 (img.height - 32 * (Y / 32))) c)
              (min 32 (img.width - 32 * (X / 32)))
              (min 32 (img.height - 32 * (Y / 32))))
            else img.data.getD ((Y * img.width + X) * 4 + c) 0) := by
  intro t
  induction t with
  | zero =>
    intro ht
    exact ⟨rfl, rfl, rfl, fun X Y c hX hY hc => by rw [if_neg (by omega)]; rfl⟩
  | succ t ih =>
    intro ht
    obtain ⟨ihw, ihh, ihl, ihv⟩ := ih (by omega)
    rw [List.range_succ, List.foldl_append]
    simp only [List.foldl_cons, List.foldl_nil]
    have hprod : 0 < nby * nbx := by omega
    have hbx : 0 < nbx := by
      rcases Nat.eq_zero_or_pos nbx with h0 | h0
      · rw [h0, Nat.mul_zero] at hprod
        exact absurd hprod (lt_irrefl 0)
      · exact h0
    have hbcol : t % nbx < nbx := Nat.mod_lt _ hbx
    have hbrow : t / nbx < nby := by
      rw [Nat.div_lt_iff_lt_mul hbx]
      omega
    have hby : 0 < nby := by
      rcases Nat.eq_zero_or_pos nby with h0 | h0
      · rw [h0, Nat.zero_mul] at hprod
        exact absurd hprod (lt_irrefl 0)
      · exact h0
    have hwpos : 0 < img.width := by omega
    have hhpos : 0 < img.height := by omega
    have hx0 : 32 * (t % nbx) < img.width := by omega
    have hy0 : 32 * (t / nbx) < img.height := by omega
    have hbw_le : min 32 (img.width - 32 * (t % nbx)) ≤ img.width - 32 * (t % nbx) :=
      Nat.min_le_right _ _
    have hbw_le32 : min 32 (img.width - 32 * (t % nbx)) ≤ 32 := Nat.min_le_left _ _
    have hbh_le : min 32 (img.height - 32 * (t / nbx)) ≤ img.height - 32 * (t / nbx) :=
      Nat.min_le_right _ _
    have hbh_le32 : min 32 (img.height - 32 * (t / nbx)) ≤ 32 := Nat.min_le_left _ _
    have hbw_pos : 0 < min 32 (img.width - 32 * (t % nbx)) := by
      rw [Nat.lt_min]
      exact ⟨by omega, by omega⟩
    have hbh_pos : 0 < min 32 (img.height - 32 * (t / nbx)) := by
      rw [Nat.lt_min]
      exact ⟨by omega, by omega⟩
    have e1 := Nat.div_add_mod t nbx
    have e2 : t / nbx * nbx = nbx * (t / nbx) := Nat.mul_comm _ _
    refine ⟨?_, ?_, ?_, ?_⟩
    · rw [MosaicCodec.mosaic_width]
      exact ihw
    · rw [MosaicCodec.mosaic_height]
      exact ihh
    · rw [MosaicCodec.mosaic_length]
      exact ihl
    · intro X Y c hX hY hc
      have hX32 : X / 32 < nbx := by omega
      have hY32 : Y / 32 < nby := by omega
      have hxwIM : 32 * (t % nbx) + min 32 (img.width - 32 * (t % nbx))
          ≤ ((List.range t).foldl
            (fun im k =>
              MosaicCodec.mosaic im (32 * (k % nbx)) (32 * (k / nbx))
                (min 32 (img.width - 32 * (k % nbx)))
                (min 32 (img.height - 32 * (k / nbx)))) img).width := by
        rw [ihw]
        omega
      by_cases hreg : 32 * (t % nbx) ≤ X ∧
          X < 32 * (t % nbx) + min 32 (img.width - 32 * (t % nbx)) ∧
          32 * (t / nbx) ≤ Y ∧
          Y < 32 * (t / nbx) + min 32 (img.height - 32 * (t / nbx))
      · obtain ⟨hr1, hr2, hr3, hr4⟩ := hreg
        have hXb : X / 32 = t % nbx := by omega
        have hYb : Y / 32 = t / nbx := by omega
        have hplen : (Y * ((List.range t).foldl
            (fun im k =>
              MosaicCodec.mosaic im (32 * (k % nbx)) (32 * (k / nbx))
                (min 32 (img.width - 32 * (k % nbx)))
                (min 32 (img.height - 32 * (k / nbx)))) img).width + X) * 4 + c
            < ((List.range t).foldl
            (fun im k =>
              MosaicCodec.mosaic im (32 * (k % nbx)) (32 * (k / nbx))
                (min 32 (img.width - 32 * (k % nbx)))
                (min 32 (img.height - 32 * (k / nbx)))) img).data.length := by
          rw [ihw, ihl, hlen]
          have ha := addr_lt Y img.height X img.width hY hX
          have hC : img.width * img.height * 4 = img.height * img.width * 4 := by ring
          omega
        have hin := MosaicCodec.mosaic_getD_in _ (32 * (t % nbx)) (32 * (t / nbx))
          (min 32 (img.width - 32 * (t % nbx))) (min 32 (img.height - 32 * (t / nbx)))
          hxwIM X Y c hc hr1 hr2 hr3 hr4 hplen
        rw [ihw] at hin
        rw [hin]
        rw [hXb, hYb]
        rw [if_pos (by omega)]
        have hbsum : blockSum ((List.range t).foldl
            (fun im k =>
              MosaicCodec.mosaic im (32 * (k % nbx)) (32 * (k / nbx))
                (min 32 (img.width - 32 * (k % nbx)))
                (min 32 (img.height - 32 * (k / nbx)))) img)
            (32 * (t % nbx)) (32 * (t / nbx))
            (min 32 (img.width - 32 * (t % nbx)))
            (min 32 (img.height - 32 * (t / nbx))) c
            = blockSum img (32 * (t % nbx)) (32 * (t / nbx))
            (min 32 (img.width - 32 * (t % nbx)))
            (min 32 (img.height - 32 * (t / nbx))) c := by
          show chanSum _ ((List.range t).foldl
            (fun im k =>
              MosaicCodec.mosaic im (32 * (k % nbx)) (32 * (k / nbx))
                (min 32 (img.width - 32 * (k % nbx)))
                (min 32 (img.height - 32 * (k / nbx)))) img).width _ _ _ _ _
            = chanSum img.data img.width _ _ _ _ _
          rw [ihw]
          apply chanSum_congr
          intro y2 x2 hy2 hx2
          have haddr : (32 * (t / nbx) * img.width + 32 * (t % nbx)) * 4 + c
              + y2 * (img.width * 4) + x2 * 4
              = ((32 * (t / nbx) + y2) * img.width + (32 * (t % nbx) + x2)) * 4 + c := by
            ring
          rw [haddr]
          have hXr : 32 * (t % nbx) + x2 < img.width := by omega
          have hYr : 32 * (t / nbx) + y2 < img.height := by omega
          rw [ihv (32 * (t % nbx) + x2) (32 * (t / nbx) + y2) c hXr hYr hc]
          have hq1 : (32 * (t / nbx) + y2) / 32 = t / nbx := by omega
          have hq2 : (32 * (t % nbx) + x2) / 32 = t % nbx := by omega
          rw [hq1, hq2]
          rw [if_neg (by omega)]
        rw [hbsum]
      · have hon := MosaicCodec.mosaic_getD_out _ (32 * (t % nbx)) (32 * (t / nbx))
          (min 32 (img.width - 32 * (t % nbx))) (min 32 (img.height - 32 * (t / nbx)))
          hxwIM X Y c hc (by rw [ihw]; exact hX) hreg
        rw [ihw] at hon
        rw [hon, ihv X Y c hX hY hc]
        have hXbw : X < 32 * (X / 32) + min 32 (img.width - 32 * (X / 32)) := by
          rcases Nat.le_total 32 (img.width - 32 * (X / 32)) with h | h
          · rw [Nat.min_eq_left h]
            omega
          · rw [Nat.min_eq_right h]
            omega
        have hYbw : Y < 32 * (Y / 32) + min 32 (img.height - 32 * (Y / 32)) := by
          rcases Nat.le_total 32 (img.height - 32 * (Y / 32)) with h | h
          · rw [Nat.min_eq_left h]
            omega
          · rw [Nat.min_eq_right h]
            omega
        have hne : Y / 32 * nbx + X / 32 ≠ t := by
          intro he
          obtain ⟨hYe, hXe⟩ := rowcol_inj nbx (Y / 32) (X / 32) (t / nbx) (t % nbx)
            hX32 hbcol (by omega)
          apply hreg
          refine ⟨by omega, ?_, by omega, ?_⟩
          · rw [← hXe]
            exact hXbw
          · rw [← hYe]
            exact hYbw
        by_cases hlt : Y / 32 * nbx + X / 32 < t
        · rw [if_pos hlt, if_pos (by omega)]
        · rw [if_neg hlt, if_neg (by omega)]

theorem MosaicCodec.doEncrypt_getD (img : ImageData)
    (hlen : img.data.length = img.width * img.height * 4) :
    (MosaicCodec.doEncrypt img).width = img.width ∧
    (MosaicCodec.doEncrypt img).height = img.height ∧
    (MosaicCodec.doEncrypt img).data.length = img.data.length ∧
    ∀ X Y c, X < img.width → Y < img.height → c < 4 →
      (MosaicCodec.doEncrypt img).data.getD ((Y * img.width + X) * 4 + c) 0
        = clampByte (jsRound (blockSum img (32 * (X / 32)) (32 * (Y / 32))
            (min 32 (img.width - 32 * (X / 32)))
            (min 32 (img.height - 32 * (Y / 32))) c)
            (min 32 (img.width - 32 * (X / 32)))
            (min 32 (img.height - 32 * (Y / 32)))) := by
  obtain ⟨hw2, hh2, hl2, hv⟩ := mosaic_fold_invariant img ((img.width + 31) / 32)
    ((img.height + 31) / 32) rfl rfl hlen
    ((img.height + 31) / 32 * ((img.width + 31) / 32)) (le_refl _)
  rw [MosaicCodec.doEncrypt_eq_flat]
  refine ⟨hw2, hh2, hl2, ?_⟩
  intro X Y c hX hY hc
  rw [hv X Y c hX hY hc]
  rw [if_pos ?_]
  have h1 : X / 32 < (img.width + 31) / 32 := by omega
  have h2 : Y / 32 < (img.height + 31) / 32 := by omega
  exact addr_lt _ _ _ _ h2 h1

theorem list_sum_le_mul (l : List Nat) (n : Nat) (h : ∀ x ∈ l, x ≤ n) :
    l.sum ≤ l.length * n := by
  induction l with
  | nil => simp
  | cons a l ih =>
    simp only [List.sum_cons, List.length_cons]
    have h2 := ih (fun x hx => h x (List.mem_cons_of_mem _ hx))
    have h1 := h a (List.mem_cons_self a l)
    calc a + l.sum ≤ n + l.length * n := by omega
      _ = (l.length + 1) * n := by ring

theorem chanSum_le (d : List Nat) (w x y bw bh c : Nat)
    (hbytes : ∀ b ∈ d, b < 256) :
    chanSum d w x y bw bh c ≤ 255 * (bw * bh) := by
  have hin : ∀ y2 : Nat, ((List.range bw).map (fun x2 =>
      d.getD ((y * w + x) * 4 + c + y2 * (w * 4) + x2 * 4) 0)).sum ≤ bw * 255 := by
    intro y2
    have h := list_sum_le_mul ((List.range bw).map (fun x2 =>
      d.getD ((y * w + x) * 4 + c + y2 * (w * 4) + x2 * 4) 0)) 255 (by
        intro v hv
        rw [List.mem_map] at hv
        obtain ⟨x2, hx2, rfl⟩ := hv
        have := getD_lt_256 d hbytes ((y * w + x) * 4 + c + y2 * (w * 4) + x2 * 4)
        omega)
    rw [List.length_map, List.length_range] at h
    exact h
  have hout := list_sum_le_mul ((List.range bh).map (fun y2 =>
    ((List.range bw).map (fun x2 =>
      d.getD ((y * w + x) * 4 + c + y2 * (w * 4) + x2 * 4) 0)).sum)) (bw * 255) (by
      intro s hs
      rw [List.mem_map] at hs
      obtain ⟨y2, hy2, rfl⟩ := hs
      exact hin y2)
  rw [List.length_map, List.length_range] at hout
  unfold chanSum
  calc ((List.range bh).map (fun y2 =>
      ((List.range bw).map (fun x2 =>
        d.getD ((y * w + x) * 4 + c + y2 * (w * 4) + x2 * 4) 0)).sum)).sum
      ≤ bh * (bw * 255) := hout
    _ = 255 * (bw * bh) := by ring

theorem jsRound_le_255 (total bw bh : Nat) (h : total ≤ 255 * (bw * bh)) :
    jsRound total bw bh ≤ 255 := by
  unfold jsRound
  rcases Nat.eq_zero_or_pos (bw * bh) with h0 | h0
  · rw [h0]
    simp
  · have hlt : (2 * total + bw * bh) / (2 * (bw * bh)) < 256 := by
      rw [Nat.div_lt_iff_lt_mul (by omega)]
      omega
    omega

/-- C5: the `MosaicCodec` pixel step partitions the image into blocks
of up to 32×32 pixels (the final row/column clipped to the remaining
size, nothing dropped) and overwrites every pixel of each block, in
each of the 4 channels independently, with the integer-rounded
arithmetic mean of that channel over the block. -/
theorem claim_C5_mosaic_block_averaging (img : ImageData)
    (hlen : img.data.length = img.width * img.height * 4)
    (hbytes : ∀ b ∈ img.data, b < 256) :
    (∀ X Y c, X < img.width → Y < img.height → c < 4 →
      (MosaicCodec.doEncrypt img).data.getD ((Y * img.width + X) * 4 + c) 0
        = jsRound (blockSum img (32 * (X / 32)) (32 * (Y / 32))
            (min 32 (img.width - 32 * (X / 32)))
            (min 32 (img.height - 32 * (Y / 32))) c)
            (min 32 (img.width - 32 * (X / 32)))
            (min 32 (img.height - 32 * (Y / 32)))) ∧
    (MosaicCodec.doEncrypt img).width = img.width ∧
    (MosaicCodec.doEncrypt img).height = img.height ∧
    (MosaicCodec.doEncrypt img).data.length = img.data.length := by
  obtain ⟨hw2, hh2, hl2, hv⟩ := MosaicCodec.doEncrypt_getD img hlen
  refine ⟨?_, hw2, hh2, hl2⟩
  intro X Y c hX hY hc
  rw [hv X Y c hX hY hc]
  apply clampByte_id
  have hs : blockSum img (32 * (X / 32)) (32 * (Y / 32))
      (min 32 (img.width - 32 * (X / 32))) (min 32 (img.height - 32 * (Y / 32))) c
      ≤ 255 * ((min 32 (img.width - 32 * (X / 32)))
        * (min 32 (img.height - 32 * (Y / 32)))) :=
    chanSum_le img.data img.width _ _ _ _ c hbytes
  have := jsRound_le_255 _ _ _ hs
  omega

/-- Witness for C5: the spec's example, a 2×2 image whose R values are
10, 20, 30, 41; every pixel's R channel becomes 25 (mean 25.25). -/
theorem claim_C5_mosaic_block_averaging_witness :
    (MosaicCodec.doEncrypt
      ⟨2, 2, [10, 0, 0, 0, 20, 0, 0, 0, 30, 0, 0, 0, 41, 0, 0, 0]⟩).data.getD 0 0 = 25 :=
  ((claim_C5_mosaic_block_averaging
      ⟨2, 2, [10, 0, 0, 0, 20, 0, 0, 0, 30, 0, 0, 0, 41, 0, 0, 0]⟩
      (by decide) (by decide)).1 0 0 0 (by decide) (by decide) (by decide)).trans
    (by decide)

theorem clampByte_lt_256 (v : Nat) : clampByte v < 256 := by
  unfold clampByte
  omega

theorem sum_map_const_range (n v : Nat) :
    ((List.range n).map (fun _ => v)).sum = n * v := by
  induction n with
  | zero => simp
  | succ n ih =>
    rw [List.range_succ, List.map_append, List.sum_append, ih]
    simp
    ring

theorem chanSum_const (d : List Nat) (w x y bw bh c v : Nat)
    (h : ∀ y2 x2, y2 < bh → x2 < bw →
      d.getD ((y * w + x) * 4 + c + y2 * (w * 4) + x2 * 4) 0 = v) :
    chanSum d w x y bw bh c = bh * (bw * v) := by
  unfold chanSum
  have hinner : ∀ y2 ∈ List.range bh,
      ((List.range bw).map (fun x2 =>
        d.getD ((y * w + x) * 4 + c + y2 * (w * 4) + x2 * 4) 0)).sum
      = (fun _ : Nat => bw * v) y2 := by
    intro y2 hy2
    rw [List.mem_range] at hy2
    have : (List.range bw).map (fun x2 =>
        d.getD ((y * w + x) * 4 + c + y2 * (w * 4) + x2 * 4) 0)
        = (List.range bw).map (fun _ => v) := by
      apply List.map_congr_left
      intro x2 hx2
      rw [List.mem_range] at hx2
      exact h y2 x2 hy2 hx2
    rw [this, sum_map_const_range]
  rw [List.map_congr_left hinner, sum_map_const_range]

theorem jsRound_const (bw bh v : Nat) (h : 0 < bw * bh) :
    jsRound (bh * (bw * v)) bw bh = v := by
  unfold jsRound
  have h1 : 2 * (bh * (bw * v)) + bw * bh = bw * bh * (2 * v + 1) := by ring
  have h2 : 2 * (bw * bh) = bw * bh * 2 := by ring
  rw [h1, h2, Nat.mul_div_mul_left _ _ h]
  omega

/-- C10: the `MosaicCodec` pixel transform is idempotent — after one
pass every block is constant in each channel, and the rounded mean of a
constant block is that constant, so a second pass changes nothing. -/
theorem claim_C10_mosaic_idempotent (img : ImageData)
    (hlen : img.data.length = img.width * img.height * 4) :
    MosaicCodec.doEncrypt (MosaicCodec.doEncrypt img) = MosaicCodec.doEncrypt img := by
  obtain ⟨pw, ph, pl, pv⟩ := MosaicCodec.doEncrypt_getD img hlen
  have hlen_e : (MosaicCodec.doEncrypt img).data.length
      = (MosaicCodec.doEncrypt img).width * (MosaicCodec.doEncrypt img).height * 4 := by
    rw [pw, ph, pl, hlen]
  obtain ⟨qw, qh, ql, qv⟩ := MosaicCodec.doEncrypt_getD (MosaicCodec.doEncrypt img) hlen_e
  rw [pw, ph] at qv
  apply imageData_eq
  · rw [qw, pw]
  · rw [qh, ph]
  · apply List.ext_getElem
    · rw [ql]
    · intro p h1 h2
      rw [← List.getD_eq_getElem _ 0 h1, ← List.getD_eq_getElem _ 0 h2]
      have hp : p < img.width * img.height * 4 := by
        rw [ql, pl, hlen] at h1
        exact h1
      have hwpos : 0 < img.width := by
        rcases Nat.eq_zero_or_pos img.width with h0 | h0
        · rw [h0] at hp
          simp at hp
        · exact h0
      have hhpos : 0 < img.height := by
        rcases Nat.eq_zero_or_pos img.height with h0 | h0
        · rw [h0] at hp
          simp at hp
        · exact h0
      have hr : p / 4 < img.width * img.height := by omega
      have hX : p / 4 % img.width < img.width := Nat.mod_lt _ hwpos
      have hY : p / 4 / img.width < img.height := by
        rw [Nat.div_lt_iff_lt_mul hwpos]
        calc p / 4 < img.width * img.height := hr
          _ = img.height * img.width := Nat.mul_comm _ _
      have hpdecomp : p = (p / 4 / img.width * img.width + p / 4 % img.width) * 4 + p % 4 := by
        have e1 := Nat.div_add_mod (p / 4) img.width
        have e2 : p / 4 / img.width * img.width = img.width * (p / 4 / img.width) :=
          Nat.mul_comm _ _
        omega
      rw [hpdecomp]
      rw [qv (p / 4 % img.width) (p / 4 / img.width) (p % 4) hX hY (by omega)]
      rw [pv (p / 4 % img.width) (p / 4 / img.width) (p % 4) hX hY (by omega)]
      have hbwle : min 32 (img.width - 32 * (p / 4 % img.width / 32))
          ≤ img.width - 32 * (p / 4 % img.width / 32) := Nat.min_le_right _ _
      have hbwle32 : min 32 (img.width - 32 * (p / 4 % img.width / 32)) ≤ 32 :=
        Nat.min_le_left _ _
      have hbhle : min 32 (img.height - 32 * (p / 4 / img.width / 32))
          ≤ img.height - 32 * (p / 4 / img.width / 32) := Nat.min_le_right _ _
      have hbhle32 : min 32 (img.height - 32 * (p / 4 / img.width / 32)) ≤ 32 :=
        Nat.min_le_left _ _
      have hbwpos : 0 < min 32 (img.width - 32 * (p / 4 % img.width / 32)) := by
        rw [Nat.lt_min]
        exact ⟨by omega, by omega⟩
      have hbhpos : 0 < min 32 (img.height - 32 * (p / 4 / img.width / 32)) := by
        rw [Nat.lt_min]
        exact ⟨by omega, by omega⟩
      have hbsum : blockSum (MosaicCodec.doEncrypt img)
          (32 * (p / 4 % img.width / 32)) (32 * (p / 4 / img.width / 32))
          (min 32 (img.width - 32 * (p / 4 % img.width / 32)))
          (min 32 (img.height - 32 * (p / 4 / img.width / 32))) (p % 4)
          = min 32 (img.height - 32 * (p / 4 / img.width / 32))
            * (min 32 (img.width - 32 * (p / 4 % img.width / 32))
              * clampByte (jsRound (blockSum img
                (32 * (p / 4 % img.width / 32)) (32 * (p / 4 / img.width / 32))
                (min 32 (img.width - 32 * (p / 4 % img.width / 32)))
                (min 32 (img.height - 32 * (p / 4 / img.width / 32))) (p % 4))
                (min 32 (img.width - 32 * (p / 4 % img.width / 32)))
                (min 32 (img.height - 32 * (p / 4 / img.width / 32))))) := by
        show chanSum (MosaicCodec.doEncrypt img).data
          (MosaicCodec.doEncrypt img).width _ _ _ _ _ = _
        rw [pw]
        apply chanSum_const
        intro y2 x2 hy2 hx2
        have haddr : (32 * (p / 4 / img.width / 32) * img.width
              + 32 * (p / 4 % img.width / 32)) * 4 + p % 4
              + y2 * (img.width * 4) + x2 * 4
            = ((32 * (p / 4 / img.width / 32) + y2) * img.width
              + (32 * (p / 4 % img.width / 32) + x2)) * 4 + p % 4 := by
          ring
        rw [haddr]
        have hXr : 32 * (p / 4 % img.width / 32) + x2 < img.width := by omega
        have hYr : 32 * (p / 4 / img.width / 32) + y2 < img.height := by omega
        rw [pv (32 * (p / 4 % img.width / 32) + x2)
          (32 * (p / 4 / img.width / 32) + y2) (p % 4) hXr hYr (by omega)]
        have hq1 : (32 * (p / 4 % img.width / 32) + x2) / 32 = p / 4 % img.width / 32 := by
          omega
        have hq2 : (32 * (p / 4 / img.width / 32) + y2) / 32 = p / 4 / img.width / 32 := by
          omega
        rw [hq1, hq2]
      rw [hbsum]
      rw [jsRound_const _ _ _ (by positivity)]
      rw [clampByte_id _ (clampByte_lt_256 _)]

/-- Witness for C10 at a concrete 1×1 buffer. -/
theorem claim_C10_mosaic_idempotent_witness :
    MosaicCodec.doEncrypt (MosaicCodec.doEncrypt ⟨1, 1, [7, 8, 9, 255]⟩)
      = MosaicCodec.doEncrypt ⟨1, 1, [7, 8, 9, 255]⟩ :=
  claim_C10_mosaic_idempotent ⟨1, 1, [7, 8, 9, 255]⟩ (by decide)

theorem MosaicCodec.skipChunks_step (bytes : List Nat) (offset L T : Nat)
    (h1 : readU32 bytes offset = some L)
    (h2 : readU32 bytes (offset + 4) = some T) :
    MosaicCodec.skipChunks bytes offset =
      if T = 0x49454E44 then some (offset + 8 + L + 4)
      else MosaicCodec.skipChunks bytes (offset + 8 + L + 4) := by
  conv_lhs => unfold MosaicCodec.skipChunks
  split
  · next dl tc hdl htc =>
      rw [h1] at hdl
      rw [h2] at htc
      injection hdl with hdl
      injection htc with htc
      rw [hdl, htc]
  · next hno => exact (hno L T h1 h2).elim

theorem readU32_at (pre suf : List Nat) (n : Nat) (hn : n < 4294967296) :
    readU32 (pre ++ (u32be n ++ suf)) pre.length = some n := by
  have hlen : pre.length + 4 ≤ (pre ++ (u32be n ++ suf)).length := by
    simp [u32be]
  have hg : ∀ i, (pre ++ (u32be n ++ suf)).getD (pre.length + i) 0
      = (u32be n ++ suf).getD i 0 := by
    intro i
    rw [List.getD_append_right _ _ _ _ (by omega)]
    congr 1
    omega
  have hg0 : (pre ++ (u32be n ++ suf)).getD pre.length 0 = (u32be n ++ suf).getD 0 0 := by
    have := hg 0
    simpa using this
  rw [readU32, if_pos hlen, hg0, hg 1, hg 2, hg 3]
  simp only [u32be, List.cons_append, List.getD_cons_zero, List.getD_cons_succ]
  congr 1
  omega

theorem PngChunk.chunkBytes_length (c : PngChunk) (hcrc : c.crc.length = 4) :
    c.chunkBytes.length = 12 + c.cdata.length := by
  simp [PngChunk.chunkBytes, u32be, hcrc]
  omega

theorem MosaicCodec.skipChunks_walk (chunks : List PngChunk) :
    ∀ (pre tail : List Nat),
      chunks ≠ [] →
      (∀ c ∈ chunks.dropLast, c.ctype ≠ 0x49454E44) →
      (∀ c ∈ chunks,
        c.cdata.length < 4294967296 ∧ c.ctype < 4294967296 ∧ c.crc.length = 4) →
      (chunks.getLastD ⟨0, [], []⟩).ctype = 0x49454E44 →
      MosaicCodec.skipChunks
          (pre ++ ((chunks.map PngChunk.chunkBytes).flatten ++ tail)) pre.length
        = some (pre.length + ((chunks.map PngChunk.chunkBytes).flatten).length) := by
  induction chunks with
  | nil => intro pre tail hne _ _ _; exact absurd rfl hne
  | cons c rest ih =>
    intro pre tail _ hdrop hwf hlast
    obtain ⟨hclen, hctype, hccrc⟩ := hwf c (List.mem_cons_self c rest)
    have hbytes : pre ++ (((c :: rest).map PngChunk.chunkBytes).flatten ++ tail)
        = pre ++ (u32be c.cdata.length ++ (u32be c.ctype ++ (c.cdata ++ (c.crc ++
            ((rest.map PngChunk.chunkBytes).flatten ++ tail))))) := by
      simp [PngChunk.chunkBytes, List.append_assoc]
    have r1 : readU32 (pre ++ (((c :: rest).map PngChunk.chunkBytes).flatten ++ tail))
        pre.length = some c.cdata.length := by
      rw [hbytes]
      exact readU32_at _ _ _ hclen
    have r2 : readU32 (pre ++ (((c :: rest).map PngChunk.chunkBytes).flatten ++ tail))
        (pre.length + 4) = some c.ctype := by
      have hb2 : pre ++ (((c :: rest).map PngChunk.chunkBytes).flatten ++ tail)
          = (pre ++ u32be c.cdata.length) ++ (u32be c.ctype ++ (c.cdata ++ (c.crc ++
              ((rest.map PngChunk.chunkBytes).flatten ++ tail)))) := by
        rw [hbytes, List.append_assoc]
      have hl2 : pre.length + 4 = (pre ++ u32be c.cdata.length).length := by
        simp [u32be]
      rw [hb2, hl2]
      exact readU32_at _ _ _ hctype
    rw [MosaicCodec.skipChunks_step _ _ _ _ r1 r2]
    match rest with
    | [] =>
      have hIEND : c.ctype = 0x49454E44 := by
        simpa using hlast
      rw [if_pos hIEND]
      have : (([c].map PngChunk.chunkBytes).flatten).length = 12 + c.cdata.length := by
        simp [PngChunk.chunkBytes_length c hccrc]
      rw [this]
      congr 1
      omega
    | r :: rs =>
      have hne : c.ctype ≠ 0x49454E44 := by
        apply hdrop
        rw [List.dropLast_cons₂]
        exact List.mem_cons_self c _
      rw [if_neg hne]
      have hoff : pre.length + 8 + c.cdata.length + 4 = (pre ++ c.chunkBytes).length := by
        simp [PngChunk.chunkBytes_length c hccrc]
        omega
      have hb3 : pre ++ (((c :: r :: rs).map PngChunk.chunkBytes).flatten ++ tail)
          = (pre ++ c.chunkBytes) ++ (((r :: rs).map PngChunk.chunkBytes).flatten ++ tail) := by
        simp [List.append_assoc]
      rw [hoff, hb3]
      rw [ih (pre ++ c.chunkBytes) tail (by simp)
        (by
          intro c' hc'
          apply hdrop
          rw [List.dropLast_cons₂]
          exact List.mem_cons_of_mem c hc')
        (fun c' hc' => hwf c' (List.mem_cons_of_mem c hc'))
        hlast]
      have : (((c :: r :: rs).map PngChunk.chunkBytes).flatten).length
          = c.chunkBytes.length + (((r :: rs).map PngChunk.chunkBytes).flatten).length := by
        simp
      rw [this]
      congr 1
      simp
      omega

theorem readU32_sig0 (rest : List Nat) :
    readU32 (pngSignature ++ rest) 0 = some 0x89504E47 := by
  rw [readU32, if_pos (show 0 + 4 ≤ (pngSignature ++ rest).length by simp [pngSignature])]
  norm_num [pngSignature, List.getD]

theorem readU32_sig4 (rest : List Nat) :
    readU32 (pngSignature ++ rest) 4 = some 0x0D0A1A0A := by
  rw [readU32, if_pos (show 4 + 4 ≤ (pngSignature ++ rest).length by simp [pngSignature])]
  norm_num [pngSignature, List.getD]

/-- C4 (amended): for every well-formed PNG container and every
nonempty payload `F`, `MosaicCodec` decode applied to the encode output
(image file bytes followed by `F`) walks the chunks to `IEND` and
returns exactly the bytes of `F`. -/
theorem claim_C4_mosaic_container_recovery (chunks : List PngChunk) (F : List Nat)
    (hwf : WellFormedPng chunks) (hF : F ≠ []) :
    MosaicCodec.decryptToUrl (MosaicCodec.encryptToBlob (pngBytes chunks) F)
      = some F := by
  obtain ⟨hne, hdrop, hok, hlast⟩ := hwf
  have hb : MosaicCodec.encryptToBlob (pngBytes chunks) F
      = pngSignature ++ ((chunks.map PngChunk.chunkBytes).flatten ++ F) := by
    simp [MosaicCodec.encryptToBlob, pngBytes, List.append_assoc]
  rw [hb]
  have hskip := MosaicCodec.skipChunks_walk chunks pngSignature F hne hdrop hok hlast
  have hsig8 : (pngSignature : List Nat).length = 8 := by rfl
  rw [hsig8] at hskip
  rw [MosaicCodec.decryptToUrl, readU32_sig0, readU32_sig4]
  simp only []
  rw [if_neg (by push_neg; exact ⟨rfl, rfl⟩)]
  rw [hskip]
  simp only []
  have hlen : (pngSignature ++ ((chunks.map PngChunk.chunkBytes).flatten ++ F)).length
      = 8 + (chunks.map PngChunk.chunkBytes).flatten.length + F.length := by
    simp [pngSignature]
    omega
  rw [if_neg (by
    rw [hlen]
    have : 0 < F.length := List.length_pos.mpr hF
    omega)]
  have hdrop8 : 8 + (chunks.map PngChunk.chunkBytes).flatten.length
      = (pngSignature ++ (chunks.map PngChunk.chunkBytes).flatten).length := by
    simp [pngSignature]
    omega
  rw [← List.append_assoc, hdrop8, List.drop_left]

/-- Counterexample to C4 as stated: with an empty original file
`F = []`, decode of the encode output hits the no-payload branch
(`offset >= byteLength`) and returns the empty failure result instead
of the bytes of `F`. -/
theorem claim_C4_mosaic_container_counterexample :
    WellFormedPng [⟨1229278788, [], [174, 66, 96, 130]⟩] ∧
    MosaicCodec.decryptToUrl (MosaicCodec.encryptToBlob
      (pngBytes [⟨1229278788, [], [174, 66, 96, 130]⟩]) []) = none := by
  refine ⟨by decide, ?_⟩
  have hskip := MosaicCodec.skipChunks_walk [⟨1229278788, [], [174, 66, 96, 130]⟩]
    pngSignature [] (by decide) (by decide) (by decide) (by decide)
  have hsig8 : (pngSignature : List Nat).length = 8 := by rfl
  rw [hsig8] at hskip
  have hb : MosaicCodec.encryptToBlob
      (pngBytes [⟨1229278788, [], [174, 66, 96, 130]⟩]) []
      = pngSignature ++ ((([⟨1229278788, [], [174, 66, 96, 130]⟩] : List PngChunk).map
          PngChunk.chunkBytes).flatten ++ []) := by
    simp [MosaicCodec.encryptToBlob, pngBytes, List.append_assoc]
  rw [hb]
  rw [MosaicCodec.decryptToUrl, readU32_sig0, readU32_sig4]
  simp only []
  rw [if_neg (by push_neg; exact ⟨rfl, rfl⟩)]
  rw [hskip]
  simp only []
  rw [if_pos (by simp [pngSignature, PngChunk.chunkBytes, u32be])]

/-- Witness for C4 (amended) at a one-chunk container and payload
`[1]`. -/
theorem claim_C4_mosaic_container_recovery_witness :
    WellFormedPng [⟨1229278788, [], [174, 66, 96, 130]⟩] ∧ ([1] : List Nat) ≠ [] ∧
    MosaicCodec.decryptToUrl (MosaicCodec.encryptToBlob
      (pngBytes [⟨1229278788, [], [174, 66, 96, 130]⟩]) [1]) = some [1] :=
  ⟨by decide, by decide,
    claim_C4_mosaic_container_recovery _ _ (by decide) (by decide)⟩

/-- C8: `MosaicCodec` decode is a total function into `Option` — every
call returns (never throws), and each of the three container-parsing
failure conditions (first 8 bytes not the PNG signature, chunk walk
running past the end before `IEND`, no bytes after `IEND`) yields the
single empty failure result `none`. -/
theorem claim_C8_decode_error_handling (fileBuffer : List Nat)
    (hbytes : ∀ b ∈ fileBuffer, b < 256)
    (hfail : fileBuffer.take 8 ≠ pngSignature ∨
      MosaicCodec.skipChunks fileBuffer 8 = none ∨
      (∃ off, MosaicCodec.skipChunks fileBuffer 8 = some off ∧ fileBuffer.length ≤ off)) :
    MosaicCodec.decryptToUrl fileBuffer = none := by
  rw [MosaicCodec.decryptToUrl]
  rcases h0 : readU32 fileBuffer 0 with _ | m1
  · rfl
  rcases h4 : readU32 fileBuffer 4 with _ | m2
  · rfl
  simp only []
  by_cases hmagic : m1 ≠ 0x89504E47 ∨ m2 ≠ 0x0D0A1A0A
  · rw [if_pos hmagic]
  rw [if_neg hmagic]
  push_neg at hmagic
  obtain ⟨hm1, hm2⟩ := hmagic
  rcases hfail with hsig | hskip | ⟨off, hoff, hge⟩
  · exfalso
    apply hsig
    have hle8 : 8 ≤ fileBuffer.length := by
      by_contra hc
      rw [readU32, if_neg (by omega)] at h4
      exact Option.noConfusion h4
    rw [readU32, if_pos (by omega)] at h0
    rw [readU32, if_pos (by omega)] at h4
    injection h0 with h0
    injection h4 with h4
    rw [hm1] at h0
    rw [hm2] at h4
    have e0 : fileBuffer.getD 0 0 * 16777216 + fileBuffer.getD 1 0 * 65536
        + fileBuffer.getD 2 0 * 256 + fileBuffer.getD 3 0 = 2303741511 := h0
    have e4 : fileBuffer.getD 4 0 * 16777216 + fileBuffer.getD 5 0 * 65536
        + fileBuffer.getD 6 0 * 256 + fileBuffer.getD 7 0 = 218765834 := h4
    clear h0 h4
    have d0 := getD_lt_256 fileBuffer hbytes 0
    have d1 := getD_lt_256 fileBuffer hbytes 1
    have d2 := getD_lt_256 fileBuffer hbytes 2
    have d3 := getD_lt_256 fileBuffer hbytes 3
    have d4 := getD_lt_256 fileBuffer hbytes 4
    have d5 := getD_lt_256 fileBuffer hbytes 5
    have d6 := getD_lt_256 fileBuffer hbytes 6
    have d7 := getD_lt_256 fileBuffer hbytes 7
    apply List.ext_getElem
    · rw [List.length_take]
      simp [pngSignature]
      omega
    · intro i hi1 hi2
      rw [List.length_take] at hi1
      have hi8 : i < 8 := by
        simp [pngSignature] at hi2
        omega
      rw [List.getElem_take]
      have hgd : ∀ j, ∀ hj : j < fileBuffer.length, fileBuffer[j] = fileBuffer.getD j 0 := by
        intro j hj
        rw [List.getD_eq_getElem _ 0 hj]
      interval_cases i <;>
        rw [hgd _ (by omega)] <;>
        simp only [pngSignature, List.getElem_cons_zero, List.getElem_cons_succ] <;>
        omega
  · rw [hskip]
  · rw [hoff]
    simp only []
    rw [if_pos hge]

/-- Witness for C8 at the one-byte buffer `[0]`, which fails the
signature check. -/
theorem claim_C8_decode_error_handling_witness :
    (∀ b ∈ [(0 : Nat)], b < 256) ∧ MosaicCodec.decryptToUrl [0] = none :=
  ⟨by decide, claim_C8_decode_error_handling [0] (by decide) (Or.inl (by decide))⟩
